import Mathlib

set_option maxHeartbeats 1000000

/-!
Shallow embedding of the D-Bus wire codec of the `marselester/systemd` Go
package (files `header.go`, `decoder.go`, `encoder.go`, `client.go`,
`message.go`).  Bytes are modelled as natural numbers below 256, byte
strings as `List Nat`, and Go `uint32` arithmetic as `Nat` arithmetic
with explicit reduction modulo `2^32`.  Fallible operations return an
error value next to the updated state, mirroring Go's `(value, error)`
returns together with in-place mutation of the decoder/encoder state.
-/

/-- Modulus of Go `uint32` arithmetic. -/
def U32 : Nat := 4294967296

/-- maxMessageSize is the maximum length of a message (128 MiB), from `header.go`. -/
def maxMessageSize : Nat := 134217728

/-- messagePrologueSize is the length of the fixed part of a message header, from `header.go`. -/
def messagePrologueSize : Nat := 16

/-- Byte order used to convert byte slices into 32-bit unsigned integers
(`binary.LittleEndian` / `binary.BigEndian`). -/
inductive ByteOrd where
  | little
  | big

deriving DecidableEq, Repr

/-- The `header.Order` method of `header.go`: ASCII l (108) selects
little-endian, ASCII B (66) selects big-endian, anything else gives Go `nil`. -/
def byteOrderOf (b : Nat) : Option ByteOrd :=
  if b = 108 then some ByteOrd.little else if b = 66 then some ByteOrd.big else none

/-- `binary.ByteOrder.PutUint32`: serialize a uint32 into four bytes.
An argument at or above `2^32` is truncated exactly as Go's `uint32` conversion does. -/
def putU32 (o : ByteOrd) (u : Nat) : List Nat :=
  match o with
  | ByteOrd.little => [u % 256, u / 256 % 256, u / 65536 % 256, u / 16777216 % 256]
  | ByteOrd.big => [u / 16777216 % 256, u / 65536 % 256, u / 256 % 256, u % 256]

/-- `binary.ByteOrder.Uint32`: parse four bytes as a uint32. -/
def getU32 (o : ByteOrd) (b : List Nat) : Nat :=
  match o, b with
  | ByteOrd.little, [b0, b1, b2, b3] => b0 + 256 * b1 + 65536 * b2 + 16777216 * b3
  | ByteOrd.big, [b0, b1, b2, b3] => b3 + 256 * b2 + 65536 * b1 + 16777216 * b0
  | _, _ => 0

/-- `nextOffset` of `decoder.go` returns the next byte position and the padding
according to the current offset and alignment requirement.  All arithmetic is
Go `uint32` arithmetic: the sum `current + align - 1` wraps modulo `2^32`,
`^(align-1)` is the 32-bit complement `(2^32-1) ^^^ (align-1)`, and the
subtraction `next - current` wraps modulo `2^32`. -/
def nextOffset (current align : Nat) : Nat × Nat :=
  if current % align = 0 then (current, 0)
  else
    let next := ((current + align - 1) % U32) &&& ((U32 - 1) ^^^ (align - 1))
    let padding := (next + U32 - current) % U32
    (next, padding)

/-- Errors produced by the codec.  Each constructor stands for one
`fmt.Errorf` message of the source; `wrap?` constructors model `%w` wrapping. -/
inductive Err where
  /-- An io failure of the exact-n reader (short read / EOF). -/
  | ioShort
  /-- Message exceeded the maximum length (128 MiB). -/
  | maxLength (bodyLen : Nat)
  /-- Container type is not supported (multi- or zero-character signature). -/
  | containerNotSupported (sig : List Nat)
  /-- Unknown type (single signature character outside u, s, o, g). -/
  | unknownType (sig : List Nat)
  /-- Models the nil-pointer crash when the byte-order flag is invalid and
  the nil `binary.ByteOrder` is used. -/
  | nilOrder
  /-- The `Uint32At` destination is shorter than `pos + 4`. -/
  | bufTooShort
  /-- Wrapping with the message header context. -/
  | wrapMessageHeader (e : Err)
  /-- Wrapping with the discard-header-padding context. -/
  | wrapHeaderPadding (e : Err)
  /-- Wrapping with the encode-header-FieldsLen context. -/
  | wrapFieldsLen (e : Err)

deriving DecidableEq, Repr

/-- Decoder state of `decoder.go`: a byte order, the unread part of the
source, and the running offset (a uint32, used solely for alignment). -/
structure decoder where
  order : ByteOrd
  src : List Nat
  offset : Nat

deriving DecidableEq, Repr

/-- `newDecoder`: little-endian byte order and zero offset. -/
def newDecoder (src : List Nat) : decoder :=
  { order := ByteOrd.little, src := src, offset := 0 }

/-- The decoder's `ReadN`: advance the offset by n (uint32 wrap) and read
exactly n bytes; a source with fewer than n bytes is drained and the io
failure is surfaced, as `readN` does over a byte-stream source. -/
def decoder.ReadN (d : decoder) (n : Nat) : Except Err (List Nat) × decoder :=
  let off := (d.offset + n) % U32
  if n ≤ d.src.length then
    (Except.ok (d.src.take n), { d with src := d.src.drop n, offset := off })
  else
    (Except.error Err.ioShort, { d with src := [], offset := off })

/-- The decoder's `Byte`: decode a D-Bus BYTE; the offset advances only on success. -/
def decoder.Byte (d : decoder) : Except Err Nat × decoder :=
  match d.src with
  | [] => (Except.error Err.ioShort, d)
  | b :: rest => (Except.ok b, { d with src := rest, offset := (d.offset + 1) % U32 })

/-- The decoder's `Align`: discard the alignment padding.  The offset is set
to the next aligned position even when reading the padding bytes fails,
exactly as in the source. -/
def decoder.Align (d : decoder) (n : Nat) : Option Err × decoder :=
  let p := nextOffset d.offset n
  if p.2 = 0 then (none, d)
  else if p.2 ≤ d.src.length then
    (none, { d with src := d.src.drop p.2, offset := p.1 })
  else
    (some Err.ioShort, { d with src := [], offset := p.1 })

/-- The decoder's `Uint32`: align to 4, read four bytes, parse them with the
current byte order, and advance the offset by 4. -/
def decoder.Uint32 (d : decoder) : Except Err Nat × decoder :=
  match d.Align 4 with
  | (some e, d1) => (Except.error e, d1)
  | (none, d1) =>
    if 4 ≤ d1.src.length then
      (Except.ok (getU32 d1.order (d1.src.take 4)),
       { d1 with src := d1.src.drop 4, offset := (d1.offset + 4) % U32 })
    else
      (Except.error Err.ioShort, { d1 with src := [] })

/-- The decoder's `String`: decode a D-Bus STRING or OBJECT_PATH.  The length
prefix is a uint32; `strLen++` is uint32 arithmetic.  The trailing NUL byte is
read but not returned. -/
def decoder.String (d : decoder) : Except Err (List Nat) × decoder :=
  match d.Uint32 with
  | (Except.error e, d1) => (Except.error e, d1)
  | (Except.ok u, d1) =>
    let strLen := (u + 1) % U32
    if strLen ≤ d1.src.length then
      (Except.ok ((d1.src.take strLen).take (strLen - 1)),
       { d1 with src := d1.src.drop strLen, offset := (d1.offset + strLen) % U32 })
    else
      (Except.error Err.ioShort, { d1 with src := [] })

/-- The decoder's `Signature`: decode a D-Bus SIGNATURE; like STRING but the
length prefix is a single byte, and `strLen++` is byte (mod 256) arithmetic. -/
def decoder.Signature (d : decoder) : Except Err (List Nat) × decoder :=
  match d.Byte with
  | (Except.error e, d1) => (Except.error e, d1)
  | (Except.ok b0, d1) =>
    let strLen := (b0 + 1) % 256
    if strLen ≤ d1.src.length then
      (Except.ok ((d1.src.take strLen).take (strLen - 1)),
       { d1 with src := d1.src.drop strLen, offset := (d1.offset + strLen) % U32 })
    else
      (Except.error Err.ioShort, { d1 with src := [] })

/-- headerField of `header.go`: a signature, the value slots U and S (one per
supported variant type, instead of an interface, to reduce allocs), and the
field code. -/
structure headerField where
  Signature : List Nat
  U : Nat := 0
  S : List Nat := []
  Code : Nat := 0

deriving DecidableEq, Repr

/-- header of `header.go`.  The Go field `Type` is spelled `Typ` here because
`Type` is reserved in Lean. -/
structure header where
  ByteOrder : Nat
  Typ : Nat
  Flags : Nat
  Proto : Nat
  BodyLen : Nat
  Serial : Nat
  FieldsLen : Nat
  Fields : List headerField := []

deriving DecidableEq, Repr

/-- `header.Len`: length of the message header including the padding at the
end, `16 + FieldsLen` rounded up to a multiple of 8, in uint32 arithmetic. -/
def header.Len (h : header) : Nat :=
  let wantHdrLen := (messagePrologueSize + h.FieldsLen) % U32
  let p := nextOffset wantHdrLen 8
  (wantHdrLen + p.2) % U32

/-- decodeHeaderField of `header.go`: discard the struct alignment, decode the
field code byte and the variant signature, reject non-single-character
signatures, then decode the value according to the signature character
(u = 117 is UINT32, s = 115 and o = 111 are STRING/OBJECT_PATH, g = 103 is
SIGNATURE).  The string converter is elided: by the interner equivalence it
returns a string with exactly the bytes it is given. -/
def decodeHeaderField (d : decoder) : Except Err headerField × decoder :=
  match d.Align 8 with
  | (some e, d1) => (Except.error e, d1)
  | (none, d1) =>
    match d1.Byte with
    | (Except.error e, d2) => (Except.error e, d2)
    | (Except.ok code, d2) =>
      match d2.Signature with
      | (Except.error e, d3) => (Except.error e, d3)
      | (Except.ok sign, d3) =>
        if sign.length = 1 then
          let c := sign.headD 0
          if c = 117 then
            match d3.Uint32 with
            | (Except.error e, d4) => (Except.error e, d4)
            | (Except.ok u, d4) =>
              (Except.ok { Signature := sign, U := u, S := [], Code := code }, d4)
          else if c = 115 ∨ c = 111 then
            match d3.String with
            | (Except.error e, d4) => (Except.error e, d4)
            | (Except.ok s, d4) =>
              (Except.ok { Signature := sign, U := 0, S := s, Code := code }, d4)
          else if c = 103 then
            match d3.Signature with
            | (Except.error e, d4) => (Except.error e, d4)
            | (Except.ok s, d4) =>
              (Except.ok { Signature := sign, U := 0, S := s, Code := code }, d4)
          else (Except.error (Err.unknownType sign), d3)
        else (Except.error (Err.containerNotSupported sign), d3)

/-- The header-fields loop of `decodeHeader`: while the decoder's offset is
below `hdrArrEnd`, decode one field per iteration, appending to the
accumulator; a field error breaks out of the loop carrying the error.  The
`fuel` argument bounds the number of iterations; `decodeHeader` passes
`src.length + 1`, which is never exhausted because every successful field
decode consumes at least one source byte. -/
def decodeFields (fuel : Nat) (hdrArrEnd : Nat) (d : decoder) (acc : List headerField) :
    List headerField × decoder × Option Err :=
  match fuel with
  | 0 => (acc, d, none)
  | fuel' + 1 =>
    if d.offset < hdrArrEnd then
      match decodeHeaderField d with
      | (Except.error e, d1) => (acc, d1, some e)
      | (Except.ok f, d1) => decodeFields fuel' hdrArrEnd d1 (acc ++ [f])
    else (acc, d, none)

/-- decodeHeader of `header.go`: read the 16-byte prologue, select the byte
order from the flag byte (an invalid flag makes the Go code dereference a nil
interface, modelled by the `nilOrder` error), parse the fixed fields, reject
oversized bodies, then either skip the fields array or decode it one field at
a time (a field error merely breaks the loop and is then overwritten by the
result of the final 8-alignment), and finally discard the header padding. -/
def decodeHeader (d : decoder) (skipFields : Bool) : Except Err header × decoder :=
  match d.ReadN messagePrologueSize with
  | (Except.error e, d1) => (Except.error e, d1)
  | (Except.ok b, d1) =>
    match byteOrderOf (b.headD 0) with
    | none => (Except.error Err.nilOrder, d1)
    | some ord =>
      let d2 := { d1 with order := ord }
      let bodyLen := getU32 ord ((b.drop 4).take 4)
      let serial := getU32 ord ((b.drop 8).take 4)
      let fieldsLen := getU32 ord ((b.drop 12).take 4)
      if bodyLen > maxMessageSize then (Except.error (Err.maxLength bodyLen), d2)
      else if skipFields then
        match d2.ReadN fieldsLen with
        | (Except.error e, d3) => (Except.error (Err.wrapMessageHeader e), d3)
        | (Except.ok _, d3) =>
          match d3.Align 8 with
          | (some e, d4) => (Except.error (Err.wrapHeaderPadding e), d4)
          | (none, d4) =>
            (Except.ok
              { ByteOrder := b.headD 0, Typ := b.getD 1 0, Flags := b.getD 2 0,
                Proto := b.getD 3 0, BodyLen := bodyLen, Serial := serial,
                FieldsLen := fieldsLen, Fields := [] }, d4)
      else
        let hdrArrEnd := (d2.offset + fieldsLen) % U32
        let r := decodeFields (d2.src.length + 1) hdrArrEnd d2 []
        match r.2.1.Align 8 with
        | (some e, d4) => (Except.error (Err.wrapHeaderPadding e), d4)
        | (none, d4) =>
          (Except.ok
            { ByteOrder := b.headD 0, Typ := b.getD 1 0, Flags := b.getD 2 0,
              Proto := b.getD 3 0, BodyLen := bodyLen, Serial := serial,
              FieldsLen := fieldsLen, Fields := r.1 }, d4)

/-- Encoder state of `encoder.go`: a byte order, the bytes written so far,
and the running offset (a uint32, used solely for alignment). -/
structure encoder where
  order : ByteOrd
  dst : List Nat
  offset : Nat

deriving DecidableEq, Repr

/-- `newEncoder`: little-endian byte order and zero offset. -/
def newEncoder : encoder :=
  { order := ByteOrd.little, dst := [], offset := 0 }

/-- The encoder's `Align`: write the alignment padding (zero bytes). -/
def encoder.Align (e : encoder) (n : Nat) : encoder :=
  let p := nextOffset e.offset n
  if p.2 = 0 then e
  else { e with dst := e.dst ++ List.replicate p.2 0, offset := p.1 }

/-- The encoder's `Byte`: encode a D-Bus BYTE. -/
def encoder.Byte (e : encoder) (b : Nat) : encoder :=
  { e with dst := e.dst ++ [b], offset := (e.offset + 1) % U32 }

/-- The encoder's `Uint32`: align to 4 and write four bytes. -/
def encoder.Uint32 (e : encoder) (u : Nat) : encoder :=
  let e1 := e.Align 4
  { e1 with dst := e1.dst ++ putU32 e1.order u, offset := (e1.offset + 4) % U32 }

/-- The encoder's `String`: encode a D-Bus STRING or OBJECT_PATH, a uint32
length prefix, the bytes, and a trailing NUL. -/
def encoder.String (e : encoder) (s : List Nat) : encoder :=
  let e1 := e.Uint32 s.length
  { e1 with dst := e1.dst ++ s ++ [0], offset := (e1.offset + (s.length + 1)) % U32 }

/-- The encoder's `Signature`: encode a D-Bus SIGNATURE, a single length byte
(so the length is truncated mod 256), the bytes, and a trailing NUL. -/
def encoder.Signature (e : encoder) (s : List Nat) : encoder :=
  let e1 := e.Byte (s.length % 256)
  { e1 with dst := e1.dst ++ s ++ [0], offset := (e1.offset + (s.length + 1)) % U32 }

/-- Modelled from the spec: `encoder.Offset` returns the current offset.  The
method's definition is missing from src (only its callers in `header.go` and
`message.go` are present); spec section 4.1 specifies the encoder's running
`offset` used for alignment and for the late-binding length fields. -/
def encoder.Offset (e : encoder) : Nat := e.offset

/-- Modelled from the spec: `encoder.Uint32At(u, pos)` overwrites a previously
emitted UINT32 at a fixed position in the destination buffer and fails if the
buffer is shorter than `pos + 4`.  The method's definition is missing from src
(only its callers are present); spec section 4.1 describes it verbatim. -/
def encoder.Uint32At (e : encoder) (u pos : Nat) : Option Err × encoder :=
  if pos + 4 ≤ e.dst.length then
    (none, { e with dst := e.dst.take pos ++ putU32 e.order u ++ e.dst.drop (pos + 4) })
  else (some Err.bufTooShort, e)

/-- encodeHeaderField of `header.go`: reject non-single-character signatures
before writing anything, then write the 8-alignment padding, the field code,
the signature, and the value according to the signature character; an unknown
single character is rejected after those writes. -/
def encodeHeaderField (e : encoder) (f : headerField) : Option Err × encoder :=
  if f.Signature.length = 1 then
    let e1 := ((e.Align 8).Byte f.Code).Signature f.Signature
    let c := f.Signature.headD 0
    if c = 117 then (none, e1.Uint32 f.U)
    else if c = 115 ∨ c = 111 then (none, e1.String f.S)
    else if c = 103 then (none, e1.Signature f.S)
    else (some (Err.unknownType f.Signature), e1)
  else (some (Err.containerNotSupported f.Signature), e)

/-- The field loop of `encodeHeader`: encode each field in order, stopping at
the first error. -/
def encodeFields (e : encoder) (fs : List headerField) : Option Err × encoder :=
  match fs with
  | [] => (none, e)
  | f :: rest =>
    match encodeHeaderField e f with
    | (some err, e1) => (some err, e1)
    | (none, e1) => encodeFields e1 rest

/-- encodeHeader of `header.go`: reject oversized bodies before writing
anything, write the 16-byte prologue (the FieldsLen slot is written from
`h.FieldsLen` as a hint), encode the fields, overwrite the FieldsLen slot at
offset 12 with the actual encoded length of the fields array (uint32
subtraction of offsets), and pad the header to a multiple of 8. -/
def encodeHeader (e : encoder) (h : header) : Option Err × encoder :=
  if h.BodyLen > maxMessageSize then (some (Err.maxLength h.BodyLen), e)
  else
    let e1 := ((((((e.Byte h.ByteOrder).Byte h.Typ).Byte h.Flags).Byte
      h.Proto).Uint32 h.BodyLen).Uint32 h.Serial).Uint32 h.FieldsLen
    let fieldsOffset := e1.Offset
    match encodeFields e1 h.Fields with
    | (some err, e2) => (some err, e2)
    | (none, e2) =>
      let fieldsLen := (e2.Offset + U32 - fieldsOffset) % U32
      match e2.Uint32At fieldsLen 12 with
      | (some err, e3) => (some (Err.wrapFieldsLen err), e3)
      | (none, e3) => (none, e3.Align 8)

/-- The encoder state right after `encodeHeader` has written the 16-byte
prologue of `h` (used to state facts about the actual encoded length of the
fields array). -/
def prologueEnc (h : header) : encoder :=
  ((((((newEncoder.Byte h.ByteOrder).Byte h.Typ).Byte h.Flags).Byte
    h.Proto).Uint32 h.BodyLen).Uint32 h.Serial).Uint32 h.FieldsLen

/-- The actual encoded length of the fields array of `h` when encoding starts
at offset 0: the growth of the destination past the 16-byte prologue. -/
def fieldsActualLen (h : header) : Nat :=
  (encodeFields (prologueEnc h) h.Fields).2.dst.length - messagePrologueSize

/-- One `Read` call on an `io.Reader`, abstracted for the analysis of `readN`:
the reader delivers `min avail requested` bytes and reports an error flag. -/
structure readCall where
  avail : Nat
  err : Bool

deriving DecidableEq, Repr

/-- Result of `readN`: `fail` is Go's `return nil, err` after a first-call
error; `ok filled errFlag` is `return b, err` where `filled` bytes of the
n-byte buffer were filled and `errFlag` is the error of the second call
(false when only one call was made). -/
inductive readNres where
  | fail
  | ok (filled : Nat) (errFlag : Bool)

deriving DecidableEq, Repr

/-- `readN` of `decoder.go` over an abstract source: a script of `Read` call
results, consumed one per call (an exhausted script behaves as end-of-file).
The first call reads up to n bytes; on error the error is returned; when it
returned fewer than n bytes, exactly one more call is made for the rest, and
the buffer is returned together with that call's error flag. -/
def readN (n : Nat) (src : List readCall) : readNres × List readCall :=
  let c1 := src.headD { avail := 0, err := true }
  let rest1 := src.tail
  let k1 := min c1.avail n
  if c1.err then (readNres.fail, rest1)
  else if k1 = n then (readNres.ok n false, rest1)
  else
    let c2 := rest1.headD { avail := 0, err := true }
    let rest2 := rest1.tail
    let k2 := min c2.avail (n - k1)
    (readNres.ok (k1 + k2) c2.err, rest2)

/-- stringConverter of `decoder.go`: a batching buffer with a fixed capacity
and the position where the last string was written. -/
structure stringConverter where
  buf : List Nat
  capacity : Nat
  offset : Nat

deriving DecidableEq, Repr

/-- `newStringConverter`: an empty buffer of the given capacity. -/
def newStringConverter (cap : Nat) : stringConverter :=
  { buf := [], capacity := cap, offset := 0 }

/-- The converter's `String`: the empty slice gives the empty string; a slice
larger than the capacity is copied; a slice that no longer fits next to the
buffered bytes rolls the buffer over to a fresh backing array; otherwise the
bytes are appended and the just-appended region is returned. -/
def stringConverter.String (c : stringConverter) (b : List Nat) : List Nat × stringConverter :=
  let n := b.length
  if n = 0 then ([], c)
  else if n > c.capacity then (b, c)
  else
    let c1 := if c.buf.length + n > c.capacity then
        { c with buf := [], offset := 0 }
      else c
    let buf2 := c1.buf ++ b
    ((buf2.drop c1.offset).take n,
     { c1 with buf := buf2, offset := c1.offset + n })

/-- nextMsgSerial of `client.go`: pre-increment the uint32 serial counter and
bump once more when it overflowed to zero; returns the serial and the new
counter state (they coincide). -/
def nextMsgSerial (s : Nat) : Nat × Nat :=
  let s1 := (s + 1) % U32
  let s2 := if s1 = 0 then (s1 + 1) % U32 else s1
  (s2, s2)

/-- The counter state after n calls of `nextMsgSerial` starting from 0. -/
def serialAfter : Nat → Nat
  | 0 => 0
  | n + 1 => (nextMsgSerial (serialAfter n)).2

/-- ASCII decimal digit. -/
def isDigit (c : Nat) : Bool := 48 ≤ c ∧ c ≤ 57

/-- ASCII letter or decimal digit. -/
def isAlphanum (c : Nat) : Bool :=
  (48 ≤ c ∧ c ≤ 57) ∨ (65 ≤ c ∧ c ≤ 90) ∨ (97 ≤ c ∧ c ≤ 122)

/-- Lower-case hexadecimal digit character for a value below 16. -/
def hexDigit (v : Nat) : Nat := if v < 10 then 48 + v else 87 + v

/-- One character of the bus-label escaping: an alphanumeric character passes
through unless it is a digit in the first position; every other character
becomes an underscore followed by the two lower-case hex digits of its byte. -/
def escChar (first : Bool) (c : Nat) : List Nat :=
  if isAlphanum c ∧ ¬(first ∧ isDigit c) then [c]
  else [95, hexDigit (c / 16 % 16), hexDigit (c % 16)]

/-- Modelled from the spec: `escapeBusLabel` (its definition is missing from
src; only `encoder_test.go` and the `message.go` callers are present).  The
empty name maps to a single underscore; otherwise each byte is escaped with
`escChar`, the first byte with the first-position digit rule.  The seed
examples of the spec (section 6) pin the behaviour down: `_` itself is
escaped (`foo_bar@bar.service` maps to `foo_5fbar_40bar_2eservice`), so the
pass-through class is the alphanumerics, and a leading digit d becomes
`_3<d>` because `3<d>` is exactly the lower-case hex of an ASCII digit. -/
def escapeBusLabel (name : List Nat) : List Nat :=
  match name with
  | [] => [95]
  | c :: rest => escChar true c ++ (rest.map (escChar false)).flatten

/-- The letter-of-the-claim variant of the escaping in which the pass-through
class is `[A-Za-z0-9_]` including the underscore, exactly as the rule text of
the spec and of claim C2 says; used to show that no function can satisfy both
that rule text and the seed examples. -/
def escCharSpecRule (first : Bool) (c : Nat) : List Nat :=
  if first ∧ isDigit c then [95, 51, c]
  else if isAlphanum c ∨ c = 95 then [c]
  else [95, hexDigit (c / 16 % 16), hexDigit (c % 16)]

/-- The claim's literal escaping rule applied to a whole name. -/
def escapeBusLabelSpecRule (name : List Nat) : List Nat :=
  match name with
  | [] => [95]
  | c :: rest => escCharSpecRule true c ++ (rest.map (escCharSpecRule false)).flatten

def fieldChunk (f : headerField) (p : Nat) : List Nat :=
  List.replicate ((8 - p % 8) % 8) 0 ++ [f.Code] ++ [1] ++ (f.Signature ++ [0]) ++
    (if f.Signature = [117] then putU32 ByteOrd.little f.U
     else if f.Signature = [115] ∨ f.Signature = [111] then
       putU32 ByteOrd.little f.S.length ++ (f.S ++ [0])
     else if f.Signature = [103] then [f.S.length % 256] ++ (f.S ++ [0])
     else [])

def valueLen (f : headerField) : Nat :=
  if f.Signature = [117] then 4
  else if f.Signature = [115] ∨ f.Signature = [111] then 5 + f.S.length
  else if f.Signature = [103] then 2 + f.S.length
  else 0

def validField (f : headerField) : Prop :=
  f.Code < 256 ∧
  ((f.Signature = [117] ∧ f.U < U32 ∧ f.S = []) ∨
   ((f.Signature = [115] ∨ f.Signature = [111]) ∧ f.U = 0 ∧ f.S.length + 16 ≤ U32) ∨
   (f.Signature = [103] ∧ f.U = 0 ∧ f.S.length ≤ 254))

instance (f : headerField) : Decidable (validField f) := by
  unfold validField
  infer_instance

def fieldsChunk (fs : List headerField) (p : Nat) : List Nat :=
  match fs with
  | [] => []
  | f :: rest => fieldChunk f p ++ fieldsChunk rest (p + (8 - p % 8) % 8 + (4 + valueLen f))

def pro12 (h : header) : List Nat :=
  [h.ByteOrder, h.Typ, h.Flags, h.Proto] ++ putU32 ByteOrd.little h.BodyLen ++
    putU32 ByteOrd.little h.Serial

deriving instance DecidableEq for Except

def hdrEx : header :=
  { ByteOrder := 108, Typ := 1, Flags := 0, Proto := 1, BodyLen := 52, Serial := 3,
    FieldsLen := 31,
    Fields := [ { Signature := [117], U := 7, S := [], Code := 5 },
                { Signature := [115], U := 0, S := [104, 105], Code := 3 },
                { Signature := [103], U := 0, S := [117], Code := 8 } ] }

def hdrMis : header :=
  { ByteOrder := 108, Typ := 1, Flags := 0, Proto := 1, BodyLen := 0, Serial := 1,
    FieldsLen := 1, Fields := [] }

def tracks (e e1 : encoder) : Prop :=
  e1.order = e.order ∧ ∃ k, e1.dst.length = e.dst.length + k ∧
    e1.offset = (e.offset + k) % U32

def SBig : List Nat := List.replicate (U32 - 20) 97

def fBigOf (S : List Nat) : headerField := { Signature := [115], U := 0, S := S, Code := 1 }

def hdrBigOf (S : List Nat) : header :=
  { ByteOrder := 108, Typ := 1, Flags := 0, Proto := 1, BodyLen := 0, Serial := 1,
    FieldsLen := U32 - 11, Fields := [fBigOf S] }

def hdrBig : header := hdrBigOf SBig

/-- Low bits of a value below `2^w` are cleared by the mask `2^w - 2^k`. -/
theorem land_high (a k w : Nat) (ha : a < 2 ^ w) (hk : k ≤ w) :
    a &&& (2 ^ w - 2 ^ k) = a / 2 ^ k * 2 ^ k := by
  apply Nat.eq_of_testBit_eq
  intro i
  rw [Nat.testBit_and]
  have hx : (1 : Nat) ≤ 2 ^ k := Nat.one_le_two_pow
  have h1 : 2 ^ w - 2 ^ k = 2 ^ w - ((2 ^ k - 1) + 1) := by omega
  have h2 : 2 ^ k - 1 < 2 ^ w := by
    have := Nat.pow_le_pow_right (show 1 ≤ 2 by omega) hk
    omega
  rw [h1, Nat.testBit_two_pow_sub_succ h2, Nat.testBit_two_pow_sub_one]
  rw [Nat.mul_comm (a / 2 ^ k) (2 ^ k), Nat.testBit_mul_pow_two]
  rw [← Nat.shiftRight_eq_div_pow, Nat.testBit_shiftRight]
  by_cases hik : i < k
  · simp [hik, Nat.not_le_of_lt hik, show ¬ k ≤ i by omega]
  · by_cases hiw : i < w
    · have hki : k + (i - k) = i := by omega
      simp [hik, hiw, show k ≤ i by omega, hki]
    · have hfalse : a.testBit i = false := Nat.testBit_lt_two_pow (by
        calc a < 2 ^ w := ha
        _ ≤ 2 ^ i := Nat.pow_le_pow_right (by omega) (by omega))
      have hki : k + (i - k) = i := by omega
      simp [hfalse, hiw, hki]

/-- The 32-bit complement of `2^k - 1` is the mask `2^32 - 2^k`. -/
theorem xor_mask (k : Nat) (hk : k ≤ 32) :
    (U32 - 1) ^^^ (2 ^ k - 1) = U32 - 2 ^ k := by
  have hU : U32 = 2 ^ 32 := by norm_num [U32]
  apply Nat.eq_of_testBit_eq
  intro i
  rw [Nat.testBit_xor, hU]
  rw [show (2 : Nat) ^ 32 - 1 = 2 ^ 32 - 1 from rfl]
  rw [Nat.testBit_two_pow_sub_one, Nat.testBit_two_pow_sub_one]
  have hx : (1 : Nat) ≤ 2 ^ k := Nat.one_le_two_pow
  have h32 : (2 : Nat) ^ 32 - 2 ^ k = 2 ^ 32 - ((2 ^ k - 1) + 1) := by omega
  have h2 : 2 ^ k - 1 < 2 ^ 32 := by
    have := Nat.pow_le_pow_right (show 1 ≤ 2 by omega) hk
    omega
  rw [h32, Nat.testBit_two_pow_sub_succ h2, Nat.testBit_two_pow_sub_one]
  by_cases hik : i < k
  · simp [hik, show i < 32 by omega]
  · by_cases hiw : i < 32
    · simp [hik, hiw]
    · simp [hik, hiw]

/-- Rounding up to the next multiple of P by the add-and-truncate trick. -/
theorem div_round_up (P c : Nat) (hpos : 0 < P) (h0 : c % P ≠ 0) :
    (c + P - 1) / P * P = c + (P - c % P) := by
  obtain ⟨q, r, hqr, hrlt⟩ : ∃ q r, c = P * q + r ∧ r < P :=
    ⟨c / P, c % P, (Nat.div_add_mod c P).symm, Nat.mod_lt c hpos⟩
  have hrval : c % P = r := by
    rw [hqr, Nat.mul_add_mod]
    exact Nat.mod_eq_of_lt hrlt
  have hr1 : 1 ≤ r := by omega
  have hmulq : P * (q + 1) = P * q + P := by ring
  have hexp : c + P - 1 = P * (q + 1) + (r - 1) := by omega
  rw [hexp, Nat.mul_add_div hpos, Nat.div_eq_of_lt (show r - 1 < P by omega)]
  have hmul2 : (q + 1 + 0) * P = P * q + P := by ring
  rw [hrval]
  omega

/-- Characterization of `nextOffset` for a power-of-two alignment when the
aligned position still fits in a uint32: it rounds the offset up to the next
multiple of the alignment and reports the distance as padding. -/
theorem nextOffset_pow_spec (k c : Nat) (hk : k ≤ 32) (hc : c + 2 ^ k ≤ U32) :
    nextOffset c (2 ^ k) =
      (c + (2 ^ k - c % 2 ^ k) % 2 ^ k, (2 ^ k - c % 2 ^ k) % 2 ^ k) := by
  have hpos : (0 : Nat) < 2 ^ k := Nat.two_pow_pos k
  by_cases h0 : c % 2 ^ k = 0
  · simp [nextOffset, h0]
  · have hrlt : c % 2 ^ k < 2 ^ k := Nat.mod_lt c hpos
    have hr : 0 < c % 2 ^ k := Nat.pos_of_ne_zero h0
    have hpad : (2 ^ k - c % 2 ^ k) % 2 ^ k = 2 ^ k - c % 2 ^ k :=
      Nat.mod_eq_of_lt (by omega)
    have hU : U32 = 2 ^ 32 := by norm_num [U32]
    have hUval : U32 = 4294967296 := rfl
    rw [nextOffset, if_neg h0]
    simp only [xor_mask k hk, hpad]
    have h1 : c + 2 ^ k - 1 < U32 := by omega
    rw [Nat.mod_eq_of_lt h1]
    have hland : (c + 2 ^ k - 1) &&& (U32 - 2 ^ k) = (c + 2 ^ k - 1) / 2 ^ k * 2 ^ k := by
      rw [hU]
      exact land_high _ k 32 (by rw [hU] at h1; exact h1) hk
    rw [hland, div_round_up (2 ^ k) c hpos h0]
    have hkle : 2 ^ k ≤ U32 := by
      rw [hU]
      exact Nat.pow_le_pow_right (by omega) hk
    simp only [Prod.mk.injEq]
    refine ⟨trivial, ?_⟩
    have heq : c + (2 ^ k - c % 2 ^ k) + U32 - c = U32 + (2 ^ k - c % 2 ^ k) := by omega
    rw [heq, Nat.add_mod_left]
    exact Nat.mod_eq_of_lt (by omega)

theorem nextOffset8 (c : Nat) (hc : c + 8 ≤ U32) :
    nextOffset c 8 = (c + (8 - c % 8) % 8, (8 - c % 8) % 8) := by
  have h := nextOffset_pow_spec 3 c (by omega) (by norm_num; omega)
  norm_num at h
  exact h

theorem nextOffset4 (c : Nat) (hc : c + 4 ≤ U32) :
    nextOffset c 4 = (c + (4 - c % 4) % 4, (4 - c % 4) % 4) := by
  have h := nextOffset_pow_spec 2 c (by omega) (by norm_num; omega)
  norm_num at h
  exact h

theorem nextOffset2 (c : Nat) (hc : c + 2 ≤ U32) :
    nextOffset c 2 = (c + (2 - c % 2) % 2, (2 - c % 2) % 2) := by
  have h := nextOffset_pow_spec 1 c (by omega) (by norm_num; omega)
  norm_num at h
  exact h

theorem nextOffset1 (c : Nat) : nextOffset c 1 = (c, 0) := by
  simp [nextOffset, Nat.mod_one]

theorem putU32_length (o : ByteOrd) (u : Nat) : (putU32 o u).length = 4 := by
  cases o <;> rfl

theorem getU32_putU32 (u : Nat) (hu : u < U32) :
    getU32 ByteOrd.little (putU32 ByteOrd.little u) = u := by
  have hUval : U32 = 4294967296 := rfl
  simp only [putU32, getU32]
  omega

theorem dByte_ok (o : ByteOrd) (b : Nat) (r : List Nat) (p : Nat) (hp : p + 1 < U32) :
    decoder.Byte ⟨o, b :: r, p⟩ = (Except.ok b, ⟨o, r, p + 1⟩) := by
  simp [decoder.Byte, Nat.mod_eq_of_lt hp]

theorem dAlign_aligned (o : ByteOrd) (s : List Nat) (p n : Nat) (h : p % n = 0) :
    decoder.Align ⟨o, s, p⟩ n = (none, ⟨o, s, p⟩) := by
  simp [decoder.Align, nextOffset, h]

theorem dAlign8 (o : ByteOrd) (s : List Nat) (p : Nat) (hp : p + 8 ≤ U32)
    (hlen : (8 - p % 8) % 8 ≤ s.length) :
    decoder.Align ⟨o, s, p⟩ 8 =
      (none, ⟨o, s.drop ((8 - p % 8) % 8), p + (8 - p % 8) % 8⟩) := by
  by_cases h0 : p % 8 = 0
  · rw [dAlign_aligned o s p 8 h0]
    simp [h0]
  · rw [decoder.Align]
    simp only [nextOffset8 p hp]
    have hpad : (8 - p % 8) % 8 ≠ 0 := by omega
    simp [hpad, hlen]

theorem dUint32_ok (u : Nat) (r : List Nat) (p : Nat) (hu : u < U32)
    (hp : p % 4 = 0) (hpU : p + 4 < U32) :
    decoder.Uint32 ⟨ByteOrd.little, putU32 ByteOrd.little u ++ r, p⟩ =
      (Except.ok u, ⟨ByteOrd.little, r, p + 4⟩) := by
  rw [decoder.Uint32]
  rw [dAlign_aligned _ _ _ _ hp]
  have hlen : (putU32 ByteOrd.little u ++ r).length = 4 + r.length := by
    simp [putU32_length]
  have h4 : 4 ≤ (putU32 ByteOrd.little u ++ r).length := by omega
  simp only [h4, if_pos]
  rw [List.take_left' (putU32_length ByteOrd.little u),
    List.drop_left' (putU32_length ByteOrd.little u)]
  simp [getU32_putU32 u hu, Nat.mod_eq_of_lt hpU]

theorem dString_ok (s r : List Nat) (p : Nat) (hp : p % 4 = 0)
    (hoff : p + 4 + s.length + 1 < U32) :
    decoder.String ⟨ByteOrd.little, putU32 ByteOrd.little s.length ++ (s ++ [0] ++ r), p⟩ =
      (Except.ok s, ⟨ByteOrd.little, r, p + 4 + (s.length + 1)⟩) := by
  rw [decoder.String]
  rw [dUint32_ok s.length (s ++ [0] ++ r) p (by omega) hp (by omega)]
  have hm : (s.length + 1) % U32 = s.length + 1 := Nat.mod_eq_of_lt (by omega)
  simp only [hm]
  have hlen1 : (s ++ [0]).length = s.length + 1 := by simp
  have hlen : (s ++ [0] ++ r).length = s.length + 1 + r.length := by simp; omega
  have hle : s.length + 1 ≤ (s ++ [0] ++ r).length := by omega
  simp only [hle, if_pos]
  rw [List.take_left' hlen1, List.drop_left' hlen1]
  have hts : (s ++ [0]).take (s.length + 1 - 1) = s := by
    simp
  rw [hts]
  simp [Nat.mod_eq_of_lt (show p + 4 + (s.length + 1) < U32 by omega)]

theorem dSignature_ok (o : ByteOrd) (s r : List Nat) (p : Nat) (hs : s.length ≤ 254)
    (hoff : p + 1 + s.length + 1 < U32) :
    decoder.Signature ⟨o, s.length :: (s ++ [0] ++ r), p⟩ =
      (Except.ok s, ⟨o, r, p + 1 + (s.length + 1)⟩) := by
  rw [decoder.Signature]
  rw [dByte_ok o s.length (s ++ [0] ++ r) p (by omega)]
  have hm : (s.length + 1) % 256 = s.length + 1 := Nat.mod_eq_of_lt (by omega)
  simp only [hm]
  have hlen1 : (s ++ [0]).length = s.length + 1 := by simp
  have hle : s.length + 1 ≤ (s ++ [0] ++ r).length := by simp
  simp only [hle, if_pos]
  rw [List.take_left' hlen1, List.drop_left' hlen1]
  have hts : (s ++ [0]).take (s.length + 1 - 1) = s := by simp
  rw [hts]
  simp [Nat.mod_eq_of_lt (show p + 1 + (s.length + 1) < U32 by omega)]

theorem eByte_nw (o : ByteOrd) (D : List Nat) (p b : Nat) (hp : p + 1 < U32) :
    encoder.Byte ⟨o, D, p⟩ b = ⟨o, D ++ [b], p + 1⟩ := by
  simp [encoder.Byte, Nat.mod_eq_of_lt hp]

theorem eAlign_aligned (o : ByteOrd) (D : List Nat) (p n : Nat) (h : p % n = 0) :
    encoder.Align ⟨o, D, p⟩ n = ⟨o, D, p⟩ := by
  simp [encoder.Align, nextOffset, h]

theorem eAlign8_nw (o : ByteOrd) (D : List Nat) (p : Nat) (hp : p + 8 ≤ U32) :
    encoder.Align ⟨o, D, p⟩ 8 =
      ⟨o, D ++ List.replicate ((8 - p % 8) % 8) 0, p + (8 - p % 8) % 8⟩ := by
  by_cases h0 : p % 8 = 0
  · rw [eAlign_aligned o D p 8 h0]
    simp [h0]
  · rw [encoder.Align]
    simp only [nextOffset8 p hp]
    have hpad : (8 - p % 8) % 8 ≠ 0 := by omega
    simp [hpad]

theorem eUint32_nw (o : ByteOrd) (D : List Nat) (p u : Nat) (hp : p % 4 = 0)
    (hpU : p + 4 < U32) :
    encoder.Uint32 ⟨o, D, p⟩ u = ⟨o, D ++ putU32 o u, p + 4⟩ := by
  rw [encoder.Uint32, eAlign_aligned o D p 4 hp]
  simp [Nat.mod_eq_of_lt hpU]

theorem eString_nw (o : ByteOrd) (D : List Nat) (p : Nat) (s : List Nat) (hp : p % 4 = 0)
    (hpU : p + 4 + s.length + 1 < U32) :
    encoder.String ⟨o, D, p⟩ s =
      ⟨o, D ++ putU32 o s.length ++ (s ++ [0]), p + 4 + (s.length + 1)⟩ := by
  rw [encoder.String, eUint32_nw o D p s.length hp (by omega)]
  simp [Nat.mod_eq_of_lt (show p + 4 + (s.length + 1) < U32 by omega)]

theorem eSignature_nw (o : ByteOrd) (D : List Nat) (p : Nat) (s : List Nat)
    (hpU : p + 1 + s.length + 1 < U32) :
    encoder.Signature ⟨o, D, p⟩ s =
      ⟨o, D ++ [s.length % 256] ++ (s ++ [0]), p + 1 + (s.length + 1)⟩ := by
  rw [encoder.Signature, eByte_nw o D p (s.length % 256) (by omega)]
  simp [Nat.mod_eq_of_lt (show p + 1 + (s.length + 1) < U32 by omega)]

theorem field_rt_u (D : List Nat) (p u code : Nat) (hu : u < U32) (hb : p + 16 < U32) :
    encodeHeaderField ⟨ByteOrd.little, D, p⟩ ⟨[117], u, [], code⟩ =
      (none, ⟨ByteOrd.little, D ++ fieldChunk ⟨[117], u, [], code⟩ p,
        p + (8 - p % 8) % 8 + 8⟩) ∧
    (fieldChunk ⟨[117], u, [], code⟩ p).length = (8 - p % 8) % 8 + 8 ∧
    ∀ r, decodeHeaderField ⟨ByteOrd.little, fieldChunk ⟨[117], u, [], code⟩ p ++ r, p⟩ =
      (Except.ok ⟨[117], u, [], code⟩, ⟨ByteOrd.little, r, p + (8 - p % 8) % 8 + 8⟩) := by
  have hpadlt : (8 - p % 8) % 8 < 8 := by omega
  have hq8 : (p + (8 - p % 8) % 8) % 8 = 0 := by omega
  have hq4 : (p + (8 - p % 8) % 8 + 4) % 4 = 0 := by omega
  refine ⟨?_, ?_, ?_⟩
  · rw [encodeHeaderField]
    simp only [List.length_singleton, if_pos rfl, List.headD_cons]
    rw [eAlign8_nw ByteOrd.little D p (by omega)]
    rw [eByte_nw ByteOrd.little _ _ code (by omega)]
    rw [eSignature_nw ByteOrd.little _ _ [117] (by simp; omega)]
    rw [show (117 : Nat) = 117 from rfl]
    rw [eUint32_nw ByteOrd.little _ _ u (by simp; omega) (by simp; omega)]
    simp [fieldChunk, List.append_assoc]
    try omega
  · simp [fieldChunk, putU32_length]
    try omega
  · intro r
    have hs0 : fieldChunk ⟨[117], u, [], code⟩ p ++ r =
        List.replicate ((8 - p % 8) % 8) 0 ++
          (code :: 1 :: 117 :: 0 :: (putU32 ByteOrd.little u ++ r)) := by
      simp [fieldChunk, List.append_assoc]
    have hAlign : decoder.Align ⟨ByteOrd.little,
        fieldChunk ⟨[117], u, [], code⟩ p ++ r, p⟩ 8 =
        (none, ⟨ByteOrd.little,
          code :: 1 :: 117 :: 0 :: (putU32 ByteOrd.little u ++ r),
          p + (8 - p % 8) % 8⟩) := by
      rw [hs0, dAlign8 _ _ _ (by omega) (by simp)]
      rw [List.drop_left' (List.length_replicate _ _)]
    have hByte : decoder.Byte ⟨ByteOrd.little,
        code :: 1 :: 117 :: 0 :: (putU32 ByteOrd.little u ++ r),
        p + (8 - p % 8) % 8⟩ =
        (Except.ok code, ⟨ByteOrd.little,
          1 :: 117 :: 0 :: (putU32 ByteOrd.little u ++ r),
          p + (8 - p % 8) % 8 + 1⟩) :=
      dByte_ok _ _ _ _ (by omega)
    have hSig : decoder.Signature ⟨ByteOrd.little,
        1 :: 117 :: 0 :: (putU32 ByteOrd.little u ++ r),
        p + (8 - p % 8) % 8 + 1⟩ =
        (Except.ok [117], ⟨ByteOrd.little, putU32 ByteOrd.little u ++ r,
          p + (8 - p % 8) % 8 + 4⟩) := by
      have base := dSignature_ok ByteOrd.little [117] (putU32 ByteOrd.little u ++ r)
        (p + (8 - p % 8) % 8 + 1) (by norm_num) (by norm_num; omega)
      simp only [List.length_singleton, List.cons_append, List.nil_append,
        List.singleton_append] at base
      rw [show p + (8 - p % 8) % 8 + 1 + 1 + (1 + 1) = p + (8 - p % 8) % 8 + 4 by omega] at base
      exact base
    have hU32 : decoder.Uint32 ⟨ByteOrd.little, putU32 ByteOrd.little u ++ r,
        p + (8 - p % 8) % 8 + 4⟩ =
        (Except.ok u, ⟨ByteOrd.little, r, p + (8 - p % 8) % 8 + 8⟩) := by
      have base := dUint32_ok u r (p + (8 - p % 8) % 8 + 4) hu hq4 (by omega)
      rw [show p + (8 - p % 8) % 8 + 4 + 4 = p + (8 - p % 8) % 8 + 8 by omega] at base
      exact base
    rw [decodeHeaderField, hAlign]
    simp only [hByte, hSig, hU32]
    norm_num

theorem dSig_single (o : ByteOrd) (c : Nat) (V : List Nat) (P : Nat) (hoff : P + 4 < U32) :
    decoder.Signature ⟨o, 1 :: c :: 0 :: V, P⟩ = (Except.ok [c], ⟨o, V, P + 3⟩) := by
  have base := dSignature_ok o [c] V P (by norm_num) (by norm_num; omega)
  simp only [List.length_singleton, List.singleton_append, List.cons_append,
    List.nil_append] at base
  rw [show P + 1 + (1 + 1) = P + 3 by omega] at base
  exact base

theorem field_rt_s (D : List Nat) (p c : Nat) (S : List Nat) (code : Nat)
    (hc : c = 115 ∨ c = 111) (hb : p + 17 + S.length < U32) :
    encodeHeaderField ⟨ByteOrd.little, D, p⟩ ⟨[c], 0, S, code⟩ =
      (none, ⟨ByteOrd.little, D ++ fieldChunk ⟨[c], 0, S, code⟩ p,
        p + (8 - p % 8) % 8 + (9 + S.length)⟩) ∧
    (fieldChunk ⟨[c], 0, S, code⟩ p).length = (8 - p % 8) % 8 + (9 + S.length) ∧
    ∀ r, decodeHeaderField ⟨ByteOrd.little, fieldChunk ⟨[c], 0, S, code⟩ p ++ r, p⟩ =
      (Except.ok ⟨[c], 0, S, code⟩, ⟨ByteOrd.little, r, p + (8 - p % 8) % 8 + (9 + S.length)⟩) := by
  have hc17 : c ≠ 117 := by rcases hc with rfl | rfl <;> omega
  have hc103 : c ≠ 103 := by rcases hc with rfl | rfl <;> omega
  have hsig17 : ([c] : List Nat) ≠ [117] := by simp [hc17]
  have hsigor : ([c] : List Nat) = [115] ∨ ([c] : List Nat) = [111] := by
    rcases hc with rfl | rfl <;> simp
  have hpadlt : (8 - p % 8) % 8 < 8 := by omega
  have hq8 : (p + (8 - p % 8) % 8) % 8 = 0 := by omega
  have hq4 : (p + (8 - p % 8) % 8 + 4) % 4 = 0 := by omega
  refine ⟨?_, ?_, ?_⟩
  · rw [encodeHeaderField]
    simp only [List.length_singleton, if_pos rfl, List.headD_cons]
    rw [eAlign8_nw ByteOrd.little D p (by omega)]
    rw [eByte_nw ByteOrd.little _ _ code (by omega)]
    rw [eSignature_nw ByteOrd.little _ _ [c] (by simp; omega)]
    rw [eString_nw ByteOrd.little _ _ S (by simp; omega) (by simp; omega)]
    simp [hc17, hc103, hsig17, hsigor, hc, fieldChunk, List.append_assoc]
    try omega
  · simp [fieldChunk, hsig17, hsigor, hc, putU32_length]
    try omega
  · intro r
    have hs0 : fieldChunk ⟨[c], 0, S, code⟩ p ++ r =
        List.replicate ((8 - p % 8) % 8) 0 ++
          (code :: 1 :: c :: 0 ::
            (putU32 ByteOrd.little S.length ++ (S ++ [0] ++ r))) := by
      simp [fieldChunk, hsig17, hsigor, hc, List.append_assoc]
    have hAlign : decoder.Align ⟨ByteOrd.little,
        fieldChunk ⟨[c], 0, S, code⟩ p ++ r, p⟩ 8 =
        (none, ⟨ByteOrd.little,
          code :: 1 :: c :: 0 :: (putU32 ByteOrd.little S.length ++ (S ++ [0] ++ r)),
          p + (8 - p % 8) % 8⟩) := by
      rw [hs0, dAlign8 _ _ _ (by omega) (by simp)]
      rw [List.drop_left' (List.length_replicate _ _)]
    have hByte : decoder.Byte ⟨ByteOrd.little,
        code :: 1 :: c :: 0 :: (putU32 ByteOrd.little S.length ++ (S ++ [0] ++ r)),
        p + (8 - p % 8) % 8⟩ =
        (Except.ok code, ⟨ByteOrd.little,
          1 :: c :: 0 :: (putU32 ByteOrd.little S.length ++ (S ++ [0] ++ r)),
          p + (8 - p % 8) % 8 + 1⟩) :=
      dByte_ok _ _ _ _ (by omega)
    have hSig : decoder.Signature ⟨ByteOrd.little,
        1 :: c :: 0 :: (putU32 ByteOrd.little S.length ++ (S ++ [0] ++ r)),
        p + (8 - p % 8) % 8 + 1⟩ =
        (Except.ok [c], ⟨ByteOrd.little,
          putU32 ByteOrd.little S.length ++ (S ++ [0] ++ r),
          p + (8 - p % 8) % 8 + 4⟩) := by
      have base := dSig_single ByteOrd.little c
        (putU32 ByteOrd.little S.length ++ (S ++ [0] ++ r))
        (p + (8 - p % 8) % 8 + 1) (by omega)
      rw [show p + (8 - p % 8) % 8 + 1 + 3 = p + (8 - p % 8) % 8 + 4 by omega] at base
      exact base
    have hString : decoder.String ⟨ByteOrd.little,
        putU32 ByteOrd.little S.length ++ (S ++ [0] ++ r),
        p + (8 - p % 8) % 8 + 4⟩ =
        (Except.ok S, ⟨ByteOrd.little, r, p + (8 - p % 8) % 8 + (9 + S.length)⟩) := by
      have base := dString_ok S r (p + (8 - p % 8) % 8 + 4) hq4 (by omega)
      rw [show p + (8 - p % 8) % 8 + 4 + 4 + (S.length + 1)
          = p + (8 - p % 8) % 8 + (9 + S.length) by omega] at base
      exact base
    rw [decodeHeaderField, hAlign]
    simp only [hByte, hSig, hString]
    simp [hc17, hc103, hc]

theorem field_rt_g (D : List Nat) (p : Nat) (S : List Nat) (code : Nat)
    (hs : S.length ≤ 254) (hb : p + 17 + S.length < U32) :
    encodeHeaderField ⟨ByteOrd.little, D, p⟩ ⟨[103], 0, S, code⟩ =
      (none, ⟨ByteOrd.little, D ++ fieldChunk ⟨[103], 0, S, code⟩ p,
        p + (8 - p % 8) % 8 + (6 + S.length)⟩) ∧
    (fieldChunk ⟨[103], 0, S, code⟩ p).length = (8 - p % 8) % 8 + (6 + S.length) ∧
    ∀ r, decodeHeaderField ⟨ByteOrd.little, fieldChunk ⟨[103], 0, S, code⟩ p ++ r, p⟩ =
      (Except.ok ⟨[103], 0, S, code⟩, ⟨ByteOrd.little, r,
        p + (8 - p % 8) % 8 + (6 + S.length)⟩) := by
  have hmod : S.length % 256 = S.length := Nat.mod_eq_of_lt (by omega)
  have hpadlt : (8 - p % 8) % 8 < 8 := by omega
  have hq8 : (p + (8 - p % 8) % 8) % 8 = 0 := by omega
  refine ⟨?_, ?_, ?_⟩
  · rw [encodeHeaderField]
    simp only [List.length_singleton, if_pos rfl, List.headD_cons]
    rw [eAlign8_nw ByteOrd.little D p (by omega)]
    rw [eByte_nw ByteOrd.little _ _ code (by omega)]
    rw [eSignature_nw ByteOrd.little _ _ [103] (by simp; omega)]
    rw [eSignature_nw ByteOrd.little _ _ S (by simp; omega)]
    simp [fieldChunk, hmod, List.append_assoc]
    try omega
  · simp [fieldChunk, hmod]
    try omega
  · intro r
    have hs0 : fieldChunk ⟨[103], 0, S, code⟩ p ++ r =
        List.replicate ((8 - p % 8) % 8) 0 ++
          (code :: 1 :: 103 :: 0 :: (S.length :: (S ++ [0] ++ r))) := by
      simp [fieldChunk, hmod, List.append_assoc]
    have hAlign : decoder.Align ⟨ByteOrd.little,
        fieldChunk ⟨[103], 0, S, code⟩ p ++ r, p⟩ 8 =
        (none, ⟨ByteOrd.little,
          code :: 1 :: 103 :: 0 :: (S.length :: (S ++ [0] ++ r)),
          p + (8 - p % 8) % 8⟩) := by
      rw [hs0, dAlign8 _ _ _ (by omega) (by simp)]
      rw [List.drop_left' (List.length_replicate _ _)]
    have hByte : decoder.Byte ⟨ByteOrd.little,
        code :: 1 :: 103 :: 0 :: (S.length :: (S ++ [0] ++ r)),
        p + (8 - p % 8) % 8⟩ =
        (Except.ok code, ⟨ByteOrd.little,
          1 :: 103 :: 0 :: (S.length :: (S ++ [0] ++ r)),
          p + (8 - p % 8) % 8 + 1⟩) :=
      dByte_ok _ _ _ _ (by omega)
    have hSig : decoder.Signature ⟨ByteOrd.little,
        1 :: 103 :: 0 :: (S.length :: (S ++ [0] ++ r)),
        p + (8 - p % 8) % 8 + 1⟩ =
        (Except.ok [103], ⟨ByteOrd.little, S.length :: (S ++ [0] ++ r),
          p + (8 - p % 8) % 8 + 4⟩) := by
      have base := dSig_single ByteOrd.little 103 (S.length :: (S ++ [0] ++ r))
        (p + (8 - p % 8) % 8 + 1) (by omega)
      rw [show p + (8 - p % 8) % 8 + 1 + 3 = p + (8 - p % 8) % 8 + 4 by omega] at base
      exact base
    have hVal : decoder.Signature ⟨ByteOrd.little, S.length :: (S ++ [0] ++ r),
        p + (8 - p % 8) % 8 + 4⟩ =
        (Except.ok S, ⟨ByteOrd.little, r, p + (8 - p % 8) % 8 + (6 + S.length)⟩) := by
      have base := dSignature_ok ByteOrd.little S r (p + (8 - p % 8) % 8 + 4) hs (by omega)
      rw [show p + (8 - p % 8) % 8 + 4 + 1 + (S.length + 1)
          = p + (8 - p % 8) % 8 + (6 + S.length) by omega] at base
      exact base
    rw [decodeHeaderField, hAlign]
    simp only [hByte, hSig, hVal]
    norm_num

theorem field_rt (f : headerField) (D : List Nat) (p : Nat) (hf : validField f)
    (hb : p + 17 + valueLen f < U32) :
    encodeHeaderField ⟨ByteOrd.little, D, p⟩ f =
      (none, ⟨ByteOrd.little, D ++ fieldChunk f p,
        p + (8 - p % 8) % 8 + (4 + valueLen f)⟩) ∧
    (fieldChunk f p).length = (8 - p % 8) % 8 + (4 + valueLen f) ∧
    ∀ r, decodeHeaderField ⟨ByteOrd.little, fieldChunk f p ++ r, p⟩ =
      (Except.ok f, ⟨ByteOrd.little, r, p + (8 - p % 8) % 8 + (4 + valueLen f)⟩) := by
  obtain ⟨sig, fu, fs, fcode⟩ := f
  obtain ⟨hcode, hcases⟩ := hf
  rcases hcases with ⟨hsig, hU, hS⟩ | ⟨hsig, hU, hS⟩ | ⟨hsig, hU, hS⟩
  · simp only at hsig hU hS
    subst hsig hS
    have hv : valueLen ⟨[117], fu, [], fcode⟩ = 4 := by simp [valueLen]
    rw [hv] at hb ⊢
    rw [show (4 : Nat) + 4 = 8 from rfl]
    exact field_rt_u D p fu fcode hU (by omega)
  · simp only at hsig hU hS
    subst hU
    have hsg : sig = [115] ∨ sig = [111] := hsig
    have hv : valueLen ⟨sig, 0, fs, fcode⟩ = 5 + fs.length := by
      rcases hsg with rfl | rfl <;> simp [valueLen]
    rw [hv] at hb ⊢
    rw [show (4 : Nat) + (5 + fs.length) = 9 + fs.length by omega]
    rcases hsg with rfl | rfl
    · exact field_rt_s D p 115 fs fcode (Or.inl rfl) (by omega)
    · exact field_rt_s D p 111 fs fcode (Or.inr rfl) (by omega)
  · simp only at hsig hU hS
    subst hsig hU
    have hv : valueLen ⟨[103], 0, fs, fcode⟩ = 2 + fs.length := by simp [valueLen]
    rw [hv] at hb ⊢
    rw [show (4 : Nat) + (2 + fs.length) = 6 + fs.length by omega]
    exact field_rt_g D p fs fcode hS (by omega)

theorem fieldChunk_length (f : headerField) (p : Nat) (hf : validField f) :
    (fieldChunk f p).length = (8 - p % 8) % 8 + (4 + valueLen f) := by
  obtain ⟨sig, fu, fs, fcode⟩ := f
  obtain ⟨hcode, hcases⟩ := hf
  rcases hcases with ⟨hsig, hU, hS⟩ | ⟨hsig, hU, hS⟩ | ⟨hsig, hU, hS⟩
  · simp only at hsig hU hS
    subst hsig hS
    simp [fieldChunk, valueLen, putU32_length]
    try omega
  · simp only at hsig hU hS
    have hsg : sig = [115] ∨ sig = [111] := hsig
    rcases hsg with rfl | rfl <;> (simp [fieldChunk, valueLen, putU32_length]; try omega)
  · simp only at hsig hU hS
    subst hsig
    simp [fieldChunk, valueLen]
    try omega

theorem fields_rt (fs : List headerField) (D : List Nat) (p : Nat)
    (hf : ∀ f ∈ fs, validField f)
    (hb : p + (fieldsChunk fs p).length + 17 < U32) :
    encodeFields ⟨ByteOrd.little, D, p⟩ fs =
      (none, ⟨ByteOrd.little, D ++ fieldsChunk fs p, p + (fieldsChunk fs p).length⟩) ∧
    ∀ r acc fuel, fs.length ≤ fuel →
      decodeFields fuel (p + (fieldsChunk fs p).length)
          ⟨ByteOrd.little, fieldsChunk fs p ++ r, p⟩ acc =
        (acc ++ fs, ⟨ByteOrd.little, r, p + (fieldsChunk fs p).length⟩, none) := by
  induction fs generalizing D p with
  | nil =>
    refine ⟨by simp [encodeFields, fieldsChunk], ?_⟩
    intro r acc fuel _
    cases fuel with
    | zero => simp [decodeFields, fieldsChunk]
    | succ fuel' => simp [decodeFields, fieldsChunk]
  | cons f rest ih =>
    have hvf : validField f := hf f (by simp)
    have hrest : ∀ g ∈ rest, validField g := fun g hg => hf g (by simp [hg])
    have hcl := fieldChunk_length f p hvf
    have hlen : (fieldsChunk (f :: rest) p).length =
        (fieldChunk f p).length +
          (fieldsChunk rest (p + (8 - p % 8) % 8 + (4 + valueLen f))).length := by
      simp [fieldsChunk]
    have hpadlt : (8 - p % 8) % 8 < 8 := by omega
    have hfr := field_rt f D p hvf (by omega)
    have IH := ih (D ++ fieldChunk f p) (p + (8 - p % 8) % 8 + (4 + valueLen f)) hrest
      (by omega)
    constructor
    · rw [encodeFields, hfr.1]
      dsimp only
      rw [IH.1]
      have hoff : p + (8 - p % 8) % 8 + (4 + valueLen f) +
          (fieldsChunk rest (p + (8 - p % 8) % 8 + (4 + valueLen f))).length =
          p + (fieldsChunk (f :: rest) p).length := by
        rw [hlen]
        omega
      rw [hoff]
      simp [fieldsChunk, List.append_assoc]
    · intro r acc fuel hfuel
      cases fuel with
      | zero => simp at hfuel
      | succ fuel' =>
        rw [decodeFields]
        dsimp only
        rw [if_pos (show p < p + (fieldsChunk (f :: rest) p).length by omega)]
        rw [show fieldsChunk (f :: rest) p ++ r =
            fieldChunk f p ++
              (fieldsChunk rest (p + (8 - p % 8) % 8 + (4 + valueLen f)) ++ r) by
          simp [fieldsChunk, List.append_assoc]]
        rw [hfr.2.2]
        dsimp only
        rw [show p + (fieldsChunk (f :: rest) p).length =
            p + (8 - p % 8) % 8 + (4 + valueLen f) +
              (fieldsChunk rest (p + (8 - p % 8) % 8 + (4 + valueLen f))).length by omega]
        rw [IH.2 r (acc ++ [f]) fuel' (by simp at hfuel; omega)]
        simp

theorem pro12_length (h : header) : (pro12 h).length = 12 := by
  simp [pro12, putU32_length]

theorem prologue_chain (h : header) :
    ((((((newEncoder.Byte h.ByteOrder).Byte h.Typ).Byte h.Flags).Byte
      h.Proto).Uint32 h.BodyLen).Uint32 h.Serial).Uint32 h.FieldsLen =
      ⟨ByteOrd.little, pro12 h ++ putU32 ByteOrd.little h.FieldsLen, 16⟩ := by
  rw [show newEncoder = (⟨ByteOrd.little, [], 0⟩ : encoder) from rfl]
  rw [eByte_nw ByteOrd.little [] 0 h.ByteOrder (by norm_num [U32])]
  rw [eByte_nw ByteOrd.little _ 1 h.Typ (by norm_num [U32])]
  rw [eByte_nw ByteOrd.little _ 2 h.Flags (by norm_num [U32])]
  rw [eByte_nw ByteOrd.little _ 3 h.Proto (by norm_num [U32])]
  rw [eUint32_nw ByteOrd.little _ 4 h.BodyLen (by norm_num) (by norm_num [U32])]
  rw [eUint32_nw ByteOrd.little _ 8 h.Serial (by norm_num) (by norm_num [U32])]
  rw [eUint32_nw ByteOrd.little _ 12 h.FieldsLen (by norm_num) (by norm_num [U32])]
  simp [pro12, List.append_assoc]

theorem eUint32At_16 (o : ByteOrd) (A B C : List Nat) (q u : Nat)
    (hA : A.length = 12) (hB : B.length = 4) :
    encoder.Uint32At ⟨o, A ++ B ++ C, q⟩ u 12 =
      (none, ⟨o, A ++ putU32 o u ++ C, q⟩) := by
  rw [encoder.Uint32At]
  have hlen : (A ++ B ++ C).length = 16 + C.length := by simp [hA, hB]; omega
  rw [if_pos (by simp only [hlen]; omega)]
  have hAB : (A ++ B).length = 16 := by simp [hA, hB]
  have htake : (A ++ B ++ C).take 12 = A := by
    rw [List.append_assoc]
    exact List.take_left' hA
  have hdrop : (A ++ B ++ C).drop (12 + 4) = C := by
    rw [show 12 + 4 = 16 from rfl]
    exact List.drop_left' hAB
  rw [htake, hdrop]

theorem fieldsChunk_count_le (fs : List headerField) (p : Nat)
    (hf : ∀ f ∈ fs, validField f) : fs.length ≤ (fieldsChunk fs p).length := by
  induction fs generalizing p with
  | nil => simp [fieldsChunk]
  | cons f rest ih =>
    have hcl := fieldChunk_length f p (hf f (by simp))
    have := ih (p + (8 - p % 8) % 8 + (4 + valueLen f)) (fun g hg => hf g (by simp [hg]))
    simp only [fieldsChunk, List.length_append, List.length_cons]
    omega

theorem encodeHeader_valid (h : header)
    (hmax : h.BodyLen ≤ maxMessageSize)
    (hf : ∀ f ∈ h.Fields, validField f)
    (hbound : 16 + (fieldsChunk h.Fields 16).length + 32 < U32) :
    encodeHeader newEncoder h =
      (none, ⟨ByteOrd.little,
        pro12 h ++ putU32 ByteOrd.little (fieldsChunk h.Fields 16).length ++
          fieldsChunk h.Fields 16 ++
          List.replicate ((8 - (16 + (fieldsChunk h.Fields 16).length) % 8) % 8) 0,
        16 + (fieldsChunk h.Fields 16).length +
          (8 - (16 + (fieldsChunk h.Fields 16).length) % 8) % 8⟩) := by
  have hU : U32 = 4294967296 := rfl
  rw [encodeHeader]
  rw [if_neg (by omega)]
  rw [prologue_chain h]
  have hfields := (fields_rt h.Fields
    (pro12 h ++ putU32 ByteOrd.little h.FieldsLen) 16 hf (by omega)).1
  dsimp only [encoder.Offset]
  rw [hfields]
  dsimp only [encoder.Offset]
  rw [show (16 + (fieldsChunk h.Fields 16).length + U32 - 16) % U32 =
      (fieldsChunk h.Fields 16).length by rw [hU] at hbound ⊢; omega]
  rw [eUint32At_16 ByteOrd.little (pro12 h) (putU32 ByteOrd.little h.FieldsLen)
    (fieldsChunk h.Fields 16) (16 + (fieldsChunk h.Fields 16).length)
    (fieldsChunk h.Fields 16).length (pro12_length h) (putU32_length _ _)]
  dsimp only
  rw [eAlign8_nw ByteOrd.little _ (16 + (fieldsChunk h.Fields 16).length) (by omega)]
  try simp [List.append_assoc]

theorem decodeHeader_rt (h : header) (hbo : h.ByteOrder = 108)
    (hty : h.Typ < 256) (hfl : h.Flags < 256) (hpr : h.Proto < 256)
    (hmax : h.BodyLen ≤ maxMessageSize) (hser : h.Serial < U32)
    (hf : ∀ f ∈ h.Fields, validField f)
    (hFL : h.FieldsLen = (fieldsChunk h.Fields 16).length)
    (hbound : 16 + (fieldsChunk h.Fields 16).length + 32 < U32) :
    decodeHeader (newDecoder
      (pro12 h ++ putU32 ByteOrd.little (fieldsChunk h.Fields 16).length ++
        fieldsChunk h.Fields 16 ++
        List.replicate ((8 - (16 + (fieldsChunk h.Fields 16).length) % 8) % 8) 0)) false =
      (Except.ok h, ⟨ByteOrd.little, [],
        16 + (fieldsChunk h.Fields 16).length +
          (8 - (16 + (fieldsChunk h.Fields 16).length) % 8) % 8⟩) := by
  obtain ⟨bo, ty, fl, pr, BL, Ser, FL, fs⟩ := h
  simp only at hbo hty hfl hpr hmax hser hf hFL hbound
  subst hbo
  have hU : U32 = 4294967296 := rfl
  have hmm : maxMessageSize = 134217728 := rfl
  have hBLlt : BL < U32 := by omega
  have hLc : (fieldsChunk fs 16).length < U32 := by omega
  have hpro : pro12 ⟨108, ty, fl, pr, BL, Ser, FL, fs⟩ =
      [108, ty, fl, pr] ++ putU32 ByteOrd.little BL ++ putU32 ByteOrd.little Ser := by
    simp [pro12]
  have hfc : fieldsChunk (⟨108, ty, fl, pr, BL, Ser, FL, fs⟩ : header).Fields 16 =
      fieldsChunk fs 16 := rfl
  rw [hfc, hpro]
  set Lc := (fieldsChunk fs 16).length with hLcdef
  set FC := fieldsChunk fs 16 with hFCdef
  set rep := List.replicate ((8 - (16 + Lc) % 8) % 8) 0 with hrepdef
  set b16 := [108, ty, fl, pr] ++ putU32 ByteOrd.little BL ++ putU32 ByteOrd.little Ser ++
    putU32 ByteOrd.little Lc with hb16def
  have hb16len : b16.length = 16 := by
    simp [hb16def, putU32_length]
  have hsplit : b16 ++ (FC ++ rep) =
      [108, ty, fl, pr] ++ putU32 ByteOrd.little BL ++ putU32 ByteOrd.little Ser ++
        putU32 ByteOrd.little Lc ++ FC ++ rep := by
    simp [hb16def, List.append_assoc]
  have hRead : decoder.ReadN ⟨ByteOrd.little, b16 ++ (FC ++ rep), 0⟩ 16 =
      (Except.ok b16, ⟨ByteOrd.little, FC ++ rep, 16⟩) := by
    rw [decoder.ReadN]
    dsimp only
    have hlen : 16 ≤ (b16 ++ (FC ++ rep)).length := by simp [hb16len]
    rw [if_pos hlen]
    rw [List.take_left' hb16len, List.drop_left' hb16len]
    norm_num [hU]
  rw [← hsplit]
  rw [show newDecoder (b16 ++ (FC ++ rep)) =
    (⟨ByteOrd.little, b16 ++ (FC ++ rep), 0⟩ : decoder) from rfl]
  rw [decodeHeader, show messagePrologueSize = 16 from rfl, hRead]
  dsimp only
  have hhead : b16.headD 0 = 108 := by rw [hb16def]; rfl
  rw [hhead]
  rw [show byteOrderOf 108 = some ByteOrd.little from rfl]
  try dsimp only
  have hBLval : getU32 ByteOrd.little ((b16.drop 4).take 4) = BL := by
    simp [hb16def, putU32, getU32]
    omega
  have hServal : getU32 ByteOrd.little ((b16.drop 8).take 4) = Ser := by
    simp [hb16def, putU32, getU32]
    omega
  have hLcval : getU32 ByteOrd.little ((b16.drop 12).take 4) = Lc := by
    simp [hb16def, putU32, getU32]
    omega
  rw [hBLval, hServal, hLcval]
  rw [if_neg (by omega)]
  try dsimp only
  rw [show ((16 : Nat) + Lc) % U32 = 16 + Lc by rw [hU] at hbound ⊢; omega]
  have hfuel : fs.length ≤ (FC ++ rep).length + 1 := by
    have := fieldsChunk_count_le fs 16 hf
    simp [hFCdef]
    omega
  have hloop := (fields_rt fs b16 16 hf (by omega)).2 rep [] ((FC ++ rep).length + 1) hfuel
  rw [← hFCdef] at hloop
  rw [hloop]
  dsimp only
  have hAl : decoder.Align ⟨ByteOrd.little, rep, 16 + Lc⟩ 8 =
      (none, ⟨ByteOrd.little, [], 16 + Lc + (8 - (16 + Lc) % 8) % 8⟩) := by
    rw [dAlign8 _ _ _ (by omega) (by simp [hrepdef])]
    congr 1
    rw [hrepdef]
    simp
  rw [hAl]
  have hgd1 : b16.getD 1 0 = ty := by rw [hb16def]; rfl
  have hgd2 : b16.getD 2 0 = fl := by rw [hb16def]; rfl
  have hgd3 : b16.getD 3 0 = pr := by rw [hb16def]; rfl
  simp [hFL]
  simp [hb16def, putU32]

theorem fieldsActualLen_eq (h : header) (hf : ∀ f ∈ h.Fields, validField f)
    (hbound : 16 + (fieldsChunk h.Fields 16).length + 32 < U32) :
    fieldsActualLen h = (fieldsChunk h.Fields 16).length := by
  unfold fieldsActualLen
  rw [show prologueEnc h =
    (⟨ByteOrd.little, pro12 h ++ putU32 ByteOrd.little h.FieldsLen, 16⟩ : encoder) from
    prologue_chain h]
  rw [(fields_rt h.Fields (pro12 h ++ putU32 ByteOrd.little h.FieldsLen) 16 hf (by omega)).1]
  simp [pro12_length, putU32_length, messagePrologueSize]
  omega

/-- Claim C1: for every header whose fields all carry single-character signatures in {u, s, o, g} (valid variant values, FieldsLen equal to the encoded fields length, BodyLen within the 128 MiB bound and the totals below the uint32 range), decoding the bytes produced by encodeHeader with decodeHeader (skipFields = false) yields a header equal to the original in every field, with the fields list order preserved.  Corrected: the round trip needs FieldsLen to equal the actual encoded fields length, because decodeHeader bounds the field loop by the decoded FieldsLen while encodeHeader overwrites the slot it wrote; see the counterexample. -/
theorem c1_roundtrip (h : header)
    (hbo : h.ByteOrder = 108)
    (hty : h.Typ < 256) (hfl : h.Flags < 256) (hpr : h.Proto < 256)
    (hmax : h.BodyLen ≤ maxMessageSize) (hser : h.Serial < U32)
    (hf : ∀ f ∈ h.Fields, validField f)
    (hFL : h.FieldsLen = (fieldsChunk h.Fields 16).length)
    (hbound : 16 + h.FieldsLen + 32 < U32) :
    (encodeHeader newEncoder h).1 = none ∧
    fieldsActualLen h = h.FieldsLen ∧
    (decodeHeader (newDecoder (encodeHeader newEncoder h).2.dst) false).1 = Except.ok h := by
  have hcb : 16 + (fieldsChunk h.Fields 16).length + 32 < U32 := by omega
  refine ⟨?_, ?_, ?_⟩
  · rw [encodeHeader_valid h hmax hf hcb]
  · rw [fieldsActualLen_eq h hf hcb, hFL]
  · rw [encodeHeader_valid h hmax hf hcb]
    rw [decodeHeader_rt h hbo hty hfl hpr hmax hser hf hFL hcb]

theorem c1_witness :
    (encodeHeader newEncoder hdrEx).1 = none ∧
    fieldsActualLen hdrEx = hdrEx.FieldsLen ∧
    (decodeHeader (newDecoder (encodeHeader newEncoder hdrEx).2.dst) false).1 =
      Except.ok hdrEx :=
  c1_roundtrip hdrEx (by decide) (by decide) (by decide) (by decide) (by decide)
    (by decide) (by decide) (by decide) (by decide)

theorem c1_counterexample :
    (encodeHeader newEncoder hdrMis).1 = none ∧
    (decodeHeader (newDecoder (encodeHeader newEncoder hdrMis).2.dst) false).1 ≠
      Except.ok hdrMis := by
  decide

theorem tracks_refl (e : encoder) (he : e.offset < U32) : tracks e e :=
  ⟨rfl, 0, by omega, by rw [Nat.add_zero, Nat.mod_eq_of_lt he]⟩

theorem tracks_trans (e e1 e2 : encoder) (h1 : tracks e e1) (h2 : tracks e1 e2) :
    tracks e e2 := by
  obtain ⟨ho1, k1, hl1, hp1⟩ := h1
  obtain ⟨ho2, k2, hl2, hp2⟩ := h2
  refine ⟨ho2.trans ho1, k1 + k2, by omega, ?_⟩
  rw [hp2, hp1]
  have hU : U32 = 4294967296 := rfl
  rw [hU]
  omega

theorem tracks_offset_lt (e e1 : encoder) (h : tracks e e1) (he : e.offset < U32) :
    e1.offset < U32 := by
  obtain ⟨_, k, _, hp⟩ := h
  rw [hp]
  exact Nat.mod_lt _ (by norm_num [U32])

theorem nextOffset_fst_lt (c k : Nat) (hk1 : 1 ≤ k) (hk : k ≤ 32) (hc : c < U32) :
    (nextOffset c (2 ^ k)).1 < U32 := by
  rw [nextOffset]
  by_cases h0 : c % 2 ^ k = 0
  · simp [h0, hc]
  · rw [if_neg h0]
    have hmask := xor_mask k hk
    calc ((c + 2 ^ k - 1) % U32) &&& ((U32 - 1) ^^^ (2 ^ k - 1))
        ≤ (U32 - 1) ^^^ (2 ^ k - 1) := Nat.and_le_right
      _ = U32 - 2 ^ k := hmask
      _ < U32 := by
          have : (1 : Nat) ≤ 2 ^ k := Nat.one_le_two_pow
          have : (0 : Nat) < U32 := by norm_num [U32]
          omega

theorem nextOffset_add_pad (c k : Nat) (hk1 : 1 ≤ k) (hk : k ≤ 32) (hc : c < U32) :
    (c + (nextOffset c (2 ^ k)).2) % U32 = (nextOffset c (2 ^ k)).1 := by
  have hfst := nextOffset_fst_lt c k hk1 hk hc
  by_cases h0 : c % 2 ^ k = 0
  · simp [nextOffset, h0, Nat.mod_eq_of_lt hc]
  · rw [nextOffset, if_neg h0] at hfst ⊢
    dsimp only at hfst ⊢
    have hU : U32 = 4294967296 := rfl
    rw [hU] at hfst hc ⊢
    omega

theorem tracks_Byte (e : encoder) (b : Nat) : tracks e (e.Byte b) :=
  ⟨rfl, 1, by simp [encoder.Byte], by simp [encoder.Byte]⟩

theorem tracks_Align_pow (e : encoder) (k : Nat) (hk1 : 1 ≤ k) (hk : k ≤ 32)
    (he : e.offset < U32) : tracks e (e.Align (2 ^ k)) := by
  rw [encoder.Align]
  by_cases h0 : (nextOffset e.offset (2 ^ k)).2 = 0
  · rw [if_pos h0]
    exact tracks_refl e he
  · rw [if_neg h0]
    refine ⟨rfl, (nextOffset e.offset (2 ^ k)).2, by simp, ?_⟩
    exact (nextOffset_add_pad e.offset k hk1 hk he).symm

theorem tracks_Align4 (e : encoder) (he : e.offset < U32) : tracks e (e.Align 4) := by
  have := tracks_Align_pow e 2 (by omega) (by omega) he
  norm_num at this
  exact this

theorem tracks_Align8 (e : encoder) (he : e.offset < U32) : tracks e (e.Align 8) := by
  have := tracks_Align_pow e 3 (by omega) (by omega) he
  norm_num at this
  exact this

theorem tracks_Uint32 (e : encoder) (u : Nat) (he : e.offset < U32) :
    tracks e (e.Uint32 u) := by
  refine tracks_trans e (e.Align 4) (e.Uint32 u) (tracks_Align4 e he) ?_
  rw [encoder.Uint32]
  refine ⟨rfl, 4, ?_, rfl⟩
  simp [putU32_length]

theorem tracks_String (e : encoder) (s : List Nat) (he : e.offset < U32) :
    tracks e (e.String s) := by
  refine tracks_trans e (e.Uint32 s.length) (e.String s) (tracks_Uint32 e s.length he) ?_
  rw [encoder.String]
  exact ⟨rfl, s.length + 1, by simp, rfl⟩

theorem tracks_Signature (e : encoder) (s : List Nat) (he : e.offset < U32) :
    tracks e (e.Signature s) := by
  refine tracks_trans e (e.Byte (s.length % 256)) (e.Signature s) (tracks_Byte e _) ?_
  rw [encoder.Signature]
  exact ⟨rfl, s.length + 1, by simp, rfl⟩

theorem uint32At_ok (e : encoder) (u pos : Nat) (hpos : pos + 4 ≤ e.dst.length) :
    (e.Uint32At u pos).1 = none ∧
    (e.Uint32At u pos).2.dst.length = e.dst.length ∧
    (e.Uint32At u pos).2.offset = e.offset ∧ (e.Uint32At u pos).2.order = e.order := by
  rw [encoder.Uint32At, if_pos hpos]
  refine ⟨rfl, ?_, rfl, rfl⟩
  simp [putU32_length]
  omega

theorem tracks_encodeHeaderField (e : encoder) (f : headerField)
    (he : e.offset < U32) (hok : (encodeHeaderField e f).1 = none) :
    tracks e (encodeHeaderField e f).2 := by
  rw [encodeHeaderField] at hok ⊢
  by_cases h1 : f.Signature.length = 1
  · rw [if_pos h1] at hok ⊢
    have t1 : tracks e (((e.Align 8).Byte f.Code).Signature f.Signature) := by
      refine tracks_trans e _ _ (tracks_Align8 e he) ?_
      refine tracks_trans _ _ _ (tracks_Byte (e.Align 8) f.Code) ?_
      exact tracks_Signature _ _ (tracks_offset_lt _ _
        (tracks_trans e _ _ (tracks_Align8 e he) (tracks_Byte (e.Align 8) f.Code)) he)
    have hlt : (((e.Align 8).Byte f.Code).Signature f.Signature).offset < U32 :=
      tracks_offset_lt _ _ t1 he
    by_cases hu : f.Signature.headD 0 = 117
    · rw [if_pos hu] at hok ⊢
      exact tracks_trans e _ _ t1 (tracks_Uint32 _ _ hlt)
    · rw [if_neg hu] at hok ⊢
      by_cases hs : f.Signature.headD 0 = 115 ∨ f.Signature.headD 0 = 111
      · rw [if_pos hs] at hok ⊢
        exact tracks_trans e _ _ t1 (tracks_String _ _ hlt)
      · rw [if_neg hs] at hok ⊢
        by_cases hg : f.Signature.headD 0 = 103
        · rw [if_pos hg] at hok ⊢
          exact tracks_trans e _ _ t1 (tracks_Signature _ _ hlt)
        · rw [if_neg hg] at hok ⊢
          simp at hok
  · rw [if_neg h1] at hok ⊢
    simp at hok

theorem tracks_encodeFields (e : encoder) (fs : List headerField)
    (he : e.offset < U32) (hok : (encodeFields e fs).1 = none) :
    tracks e (encodeFields e fs).2 := by
  induction fs generalizing e with
  | nil => exact tracks_refl e he
  | cons f rest ih =>
    rw [encodeFields] at hok ⊢
    rcases hfe : encodeHeaderField e f with ⟨r1, e1⟩
    rw [hfe] at hok
    cases r1 with
    | some err => simp at hok
    | none =>
      dsimp only at hok ⊢
      have hfe1 : (encodeHeaderField e f).1 = none := by rw [hfe]
      have t1 := tracks_encodeHeaderField e f he hfe1
      rw [hfe] at t1
      exact tracks_trans e e1 _ t1 (ih e1 (tracks_offset_lt e e1 t1 he) hok)

theorem land_U32_8 (a : Nat) (ha : a < U32) : a &&& (U32 - 8) = a / 8 * 8 := by
  have h := land_high a 3 32 (by
    rw [show (2 : Nat) ^ 32 = U32 from rfl]
    exact ha) (by omega)
  rw [show ((2 : Nat) ^ 32 - 2 ^ 3) = U32 - 8 from by norm_num [U32]] at h
  rw [show ((2 : Nat) ^ 3) = 8 from by norm_num] at h
  exact h

theorem align8_offset_mod (e : encoder) (he : e.offset < U32) :
    (e.Align 8).offset % 8 = 0 := by
  have hmask : ((U32 : Nat) - 1) ^^^ (8 - 1) = U32 - 8 := by
    have h := xor_mask 3 (by omega)
    norm_num at h
    rw [show ((8 : Nat) - 1) = 7 from rfl]
    exact h
  have hU : U32 = 4294967296 := rfl
  rw [encoder.Align]
  by_cases ha : e.offset % 8 = 0
  · have h0 : (nextOffset e.offset 8).2 = 0 := by simp [nextOffset, ha]
    rw [if_pos h0]
    exact ha
  · have hmlt : (e.offset + 8 - 1) % U32 < U32 := Nat.mod_lt _ (by norm_num [U32])
    have hland := land_U32_8 ((e.offset + 8 - 1) % U32) hmlt
    have h0 : (nextOffset e.offset 8).2 ≠ 0 := by
      rw [nextOffset, if_neg ha]
      dsimp only
      rw [hmask, hland]
      rw [hU] at he ⊢
      omega
    rw [if_neg h0]
    dsimp only
    rw [nextOffset, if_neg ha]
    dsimp only
    rw [hmask, hland]
    omega

theorem tracks_prologue (e : encoder) (h : header) (he : e.offset < U32) :
    tracks e (((((((e.Byte h.ByteOrder).Byte h.Typ).Byte h.Flags).Byte
      h.Proto).Uint32 h.BodyLen).Uint32 h.Serial).Uint32 h.FieldsLen) := by
  have t1 := tracks_Byte e h.ByteOrder
  have t2 := tracks_trans _ _ _ t1 (tracks_Byte _ h.Typ)
  have t3 := tracks_trans _ _ _ t2 (tracks_Byte _ h.Flags)
  have t4 := tracks_trans _ _ _ t3 (tracks_Byte _ h.Proto)
  have t5 := tracks_trans _ _ _ t4
    (tracks_Uint32 _ h.BodyLen (tracks_offset_lt _ _ t4 he))
  have t6 := tracks_trans _ _ _ t5
    (tracks_Uint32 _ h.Serial (tracks_offset_lt _ _ t5 he))
  exact tracks_trans _ _ _ t6
    (tracks_Uint32 _ h.FieldsLen (tracks_offset_lt _ _ t6 he))

theorem c6_part1 (e : encoder) (h : header) (he : e.offset = 0)
    (hok : (encodeHeader e h).1 = none) :
    ((encodeHeader e h).2.dst.length - e.dst.length) % 8 = 0 := by
  have heU : e.offset < U32 := by rw [he]; norm_num [U32]
  rw [encodeHeader] at hok ⊢
  by_cases hmax : h.BodyLen > maxMessageSize
  · rw [if_pos hmax] at hok
    simp at hok
  · rw [if_neg hmax] at hok ⊢
    dsimp only at hok ⊢
    have t1 := tracks_prologue e h heU
    rcases hEF : encodeFields
        (((((((e.Byte h.ByteOrder).Byte h.Typ).Byte h.Flags).Byte
          h.Proto).Uint32 h.BodyLen).Uint32 h.Serial).Uint32 h.FieldsLen) h.Fields
      with ⟨rF, e2⟩
    try rw [hEF] at hok
    try rw [hEF]
    cases rF with
    | some err => simp at hok
    | none =>
      dsimp only at hok ⊢
      have hEF1 : (encodeFields (((((((e.Byte h.ByteOrder).Byte h.Typ).Byte
          h.Flags).Byte h.Proto).Uint32 h.BodyLen).Uint32 h.Serial).Uint32
          h.FieldsLen) h.Fields).1 = none := by rw [hEF]
      have t2 := tracks_encodeFields _ h.Fields (tracks_offset_lt _ _ t1 heU) hEF1
      rw [hEF] at t2
      dsimp only at t2
      have t12 := tracks_trans _ _ _ t1 t2
      rcases hAt : e2.Uint32At ((e2.Offset + U32 - (((((((e.Byte h.ByteOrder).Byte
          h.Typ).Byte h.Flags).Byte h.Proto).Uint32 h.BodyLen).Uint32
          h.Serial).Uint32 h.FieldsLen).Offset) % U32) 12 with ⟨rAt, e3⟩
      try rw [hAt] at hok
      try rw [hAt]
      cases rAt with
      | some err => simp at hok
      | none =>
        dsimp only at hok ⊢
        have hlt2 : e2.offset < U32 := tracks_offset_lt _ _ t12 heU
        have ht3 : tracks e2 e3 := by
          rw [encoder.Uint32At] at hAt
          by_cases hc : 12 + 4 ≤ e2.dst.length
          · rw [if_pos hc] at hAt
            have he3 := congrArg Prod.snd hAt
            dsimp only at he3
            rw [← he3]
            refine ⟨rfl, 0, ?_, ?_⟩
            · dsimp only
              simp [putU32_length]
              omega
            · dsimp only
              rw [Nat.add_zero, Nat.mod_eq_of_lt hlt2]
          · rw [if_neg hc] at hAt
            exact absurd (congrArg Prod.fst hAt) (by simp)
        have t123 := tracks_trans _ _ _ t12 ht3
        have tFin := tracks_trans _ _ _ t123
          (tracks_Align8 e3 (tracks_offset_lt _ _ t123 heU))
        obtain ⟨_, K, hK, hoff⟩ := tFin
        have hmod := align8_offset_mod e3 (tracks_offset_lt _ _ t123 heU)
        rw [hoff, he] at hmod
        have hdvd : ((0 + K) % U32) % 8 = K % 8 := by
          rw [Nat.zero_add]
          exact Nat.mod_mod_of_dvd K (by norm_num [U32])
        rw [hdvd] at hmod
        rw [hK]
        omega

theorem c6_part2 (h : header)
    (hok : (encodeHeader newEncoder h).1 = none)
    (hFL : h.FieldsLen = fieldsActualLen h)
    (hbound : 16 + h.FieldsLen + 32 < U32) :
    (encodeHeader newEncoder h).2.dst.length = h.Len := by
  have hU : U32 = 4294967296 := rfl
  rw [encodeHeader] at hok ⊢
  by_cases hmax : h.BodyLen > maxMessageSize
  · rw [if_pos hmax] at hok
    simp at hok
  · rw [if_neg hmax] at hok ⊢
    dsimp only at hok ⊢
    rw [prologue_chain h] at hok ⊢
    have hP16 : (pro12 h ++ putU32 ByteOrd.little h.FieldsLen).length = 16 := by
      simp [pro12_length, putU32_length]
    rcases hEF : encodeFields
        (⟨ByteOrd.little, pro12 h ++ putU32 ByteOrd.little h.FieldsLen, 16⟩ : encoder)
        h.Fields with ⟨rF, e2⟩
    try rw [hEF] at hok
    try rw [hEF]
    cases rF with
    | some err => simp at hok
    | none =>
      dsimp only [encoder.Offset] at hok ⊢
      have hEF1 : (encodeFields
          (⟨ByteOrd.little, pro12 h ++ putU32 ByteOrd.little h.FieldsLen, 16⟩ : encoder)
          h.Fields).1 = none := by rw [hEF]
      have t2 := tracks_encodeFields _ h.Fields (by norm_num [U32]) hEF1
      rw [hEF] at t2
      dsimp only at t2
      obtain ⟨ho2, K, hK2, hoff2⟩ := t2
      rw [hP16] at hK2
      have hfa : fieldsActualLen h = K := by
        unfold fieldsActualLen
        rw [show prologueEnc h = (⟨ByteOrd.little,
          pro12 h ++ putU32 ByteOrd.little h.FieldsLen, 16⟩ : encoder) from
          prologue_chain h]
        rw [hEF]
        dsimp only
        rw [hK2]
        rw [show messagePrologueSize = 16 from rfl]
        omega
      have hKFL : h.FieldsLen = K := by rw [hFL, hfa]
      have hbK : 16 + K + 32 < 4294967296 := by
        rw [hKFL, hU] at hbound
        exact hbound
      have hoffval : e2.offset = 16 + K := by
        have hoff2a : e2.offset = (16 + K) % U32 := hoff2
        rw [hU] at hoff2a
        rw [hoff2a]
        omega
      have hflcomp : (e2.offset + U32 - (16 : Nat)) % U32 = K := by
        rw [hoffval, hU]
        omega
      rw [hflcomp] at hok ⊢
      rcases hAt : e2.Uint32At K 12 with ⟨rAt, e3⟩
      try rw [hAt] at hok
      try rw [hAt]
      cases rAt with
      | some err => simp at hok
      | none =>
        dsimp only
        rw [encoder.Uint32At] at hAt
        rw [if_pos (by omega : 12 + 4 ≤ e2.dst.length)] at hAt
        have he3 := congrArg Prod.snd hAt
        dsimp only at he3
        obtain ⟨o3, D3, p3⟩ := e3
        have hD3 : D3.length = 16 + K := by
          have hln := congrArg encoder.dst he3
          dsimp only at hln
          rw [← hln]
          simp [putU32_length]
          omega
        have hp3 : p3 = 16 + K := by
          have hpo := congrArg encoder.offset he3
          dsimp only at hpo
          rw [← hpo]
          exact hoffval
        subst hp3
        rw [eAlign8_nw o3 D3 (16 + K) (by rw [hU]; omega)]
        dsimp only
        rw [header.Len]
        rw [show messagePrologueSize = 16 from rfl]
        rw [show ((16 : Nat) + h.FieldsLen) % U32 = 16 + K by
          rw [hKFL, hU]
          omega]
        rw [nextOffset8 (16 + K) (by rw [hU]; omega)]
        dsimp only
        simp only [List.length_append, List.length_replicate, hD3]
        rw [hU]
        omega

theorem eString_mod (o : ByteOrd) (D : List Nat) (p : Nat) (s : List Nat)
    (hp : p % 4 = 0) (hp4 : p + 4 < U32) :
    encoder.String ⟨o, D, p⟩ s =
      ⟨o, D ++ putU32 o s.length ++ (s ++ [0]), (p + 4 + (s.length + 1)) % U32⟩ := by
  rw [encoder.String, eUint32_nw o D p s.length hp hp4]
  simp [List.append_assoc]

theorem sbig_length : SBig.length = U32 - 20 := by
  simp [SBig]

theorem big_field_encode (S : List Nat) (hS : S.length = U32 - 20) :
    encodeHeaderField ⟨ByteOrd.little,
        pro12 (hdrBigOf S) ++ putU32 ByteOrd.little (hdrBigOf S).FieldsLen, 16⟩
        (fBigOf S) =
      (none, ⟨ByteOrd.little,
        pro12 (hdrBigOf S) ++ putU32 ByteOrd.little (hdrBigOf S).FieldsLen ++ [1] ++ [1] ++
          ([115] ++ [0]) ++ putU32 ByteOrd.little S.length ++ (S ++ [0]), 5⟩) := by
  have hU : U32 = 4294967296 := rfl
  rw [encodeHeaderField]
  rw [if_pos (by norm_num [fBigOf])]
  rw [show (fBigOf S).Code = 1 from rfl, show (fBigOf S).Signature = [115] from rfl,
    show (fBigOf S).S = S from rfl]
  rw [eAlign_aligned ByteOrd.little _ 16 8 (by norm_num)]
  rw [eByte_nw ByteOrd.little _ 16 1 (by norm_num [U32])]
  rw [eSignature_nw ByteOrd.little _ 17 [115] (by norm_num [U32])]
  norm_num
  rw [eString_mod ByteOrd.little _ 20 S (by norm_num) (by norm_num [U32])]
  rw [show (20 : Nat) + 4 + (S.length + 1) = U32 + 5 by rw [hS, hU]]
  rw [show ((U32 : Nat) + 5) % U32 = 5 by rw [hU]]
  simp [List.append_assoc]

theorem big_encode (S : List Nat) (hS : S.length = U32 - 20) :
    encodeHeader newEncoder (hdrBigOf S) =
      (none, ⟨ByteOrd.little,
        pro12 (hdrBigOf S) ++ putU32 ByteOrd.little (U32 - 11) ++
          ([1] ++ [1] ++ ([115] ++ [0]) ++ putU32 ByteOrd.little S.length ++
            (S ++ [0])) ++ List.replicate 3 0, 8⟩) := by
  have hU : U32 = 4294967296 := rfl
  rw [encodeHeader]
  rw [if_neg (by norm_num [hdrBigOf, maxMessageSize])]
  dsimp only
  rw [prologue_chain (hdrBigOf S)]
  rw [show (hdrBigOf S).Fields = [fBigOf S] from rfl]
  rw [encodeFields, big_field_encode S hS]
  dsimp only
  rw [encodeFields]
  dsimp only [encoder.Offset]
  rw [show ((5 : Nat) + U32 - 16) % U32 = U32 - 11 by rw [hU]]
  rw [show pro12 (hdrBigOf S) ++ putU32 ByteOrd.little (hdrBigOf S).FieldsLen ++ [1] ++
      [1] ++ ([115] ++ [0]) ++ putU32 ByteOrd.little S.length ++ (S ++ [0]) =
      pro12 (hdrBigOf S) ++ putU32 ByteOrd.little (hdrBigOf S).FieldsLen ++
        ([1] ++ [1] ++ ([115] ++ [0]) ++ putU32 ByteOrd.little S.length ++
          (S ++ [0])) from by simp [List.append_assoc]]
  rw [eUint32At_16 ByteOrd.little (pro12 (hdrBigOf S))
    (putU32 ByteOrd.little (hdrBigOf S).FieldsLen)
    ([1] ++ [1] ++ ([115] ++ [0]) ++ putU32 ByteOrd.little S.length ++ (S ++ [0]))
    5 (U32 - 11) (pro12_length (hdrBigOf S)) (putU32_length _ _)]
  dsimp only
  rw [eAlign8_nw ByteOrd.little _ 5 (by norm_num [U32])]

theorem fieldsActualLen_big (S : List Nat) (hS : S.length = U32 - 20) :
    fieldsActualLen (hdrBigOf S) = U32 - 11 := by
  have hU : U32 = 4294967296 := rfl
  rw [fieldsActualLen, prologueEnc, prologue_chain (hdrBigOf S)]
  rw [show (hdrBigOf S).Fields = [fBigOf S] from rfl]
  rw [encodeFields, big_field_encode S hS]
  dsimp only
  rw [encodeFields]
  dsimp only
  rw [show messagePrologueSize = 16 from rfl]
  simp only [List.length_append, pro12_length, putU32_length, List.length_cons,
    List.length_nil, hS]
  omega

theorem hdrBig_len : hdrBig.Len = 8 := by
  rfl

theorem c6_counterexample :
    (encodeHeader newEncoder hdrBig).1 = none ∧
    hdrBig.FieldsLen = fieldsActualLen hdrBig ∧
    (encodeHeader newEncoder hdrBig).2.dst.length ≠ hdrBig.Len := by
  have hU : U32 = 4294967296 := rfl
  have hfull := big_encode SBig sbig_length
  refine ⟨?_, ?_, ?_⟩
  · rw [show hdrBig = hdrBigOf SBig from rfl, hfull]
  · rw [show hdrBig = hdrBigOf SBig from rfl, fieldsActualLen_big SBig sbig_length]
    rfl
  · rw [show hdrBig = hdrBigOf SBig from rfl, hfull,
      show (hdrBigOf SBig).Len = 8 from hdrBig_len]
    dsimp only
    simp only [List.length_append, sbig_length]
    rw [hU]
    omega

/-- Claim C6: after every successful encodeHeader call started on a fresh encoder (offset 0, empty destination), the total number of bytes written is a multiple of 8, and when h.FieldsLen equals the actual encoded length of the fields array and 16 + FieldsLen + 32 is below 2^32, the total equals header.Len, i.e. 16 + FieldsLen rounded up to a multiple of 8.  Corrected: without the uint32 bound the length equality fails, because header.Len wraps the sum 16 + FieldsLen modulo 2^32 while the destination keeps every written byte; see the counterexample. -/
theorem c6_align_len (h : header)
    (hok : (encodeHeader newEncoder h).1 = none) :
    (encodeHeader newEncoder h).2.dst.length % 8 = 0 ∧
    (h.FieldsLen = fieldsActualLen h → 16 + h.FieldsLen + 32 < U32 →
      (encodeHeader newEncoder h).2.dst.length = h.Len) := by
  refine ⟨?_, fun hFL hb => c6_part2 h hok hFL hb⟩
  have h1 := c6_part1 newEncoder h rfl hok
  simpa [newEncoder] using h1

theorem c6_witness :
    ((encodeHeader newEncoder hdrEx).1 = none) ∧
    ((encodeHeader newEncoder hdrEx).2.dst.length % 8 = 0 ∧
     (hdrEx.FieldsLen = fieldsActualLen hdrEx → 16 + hdrEx.FieldsLen + 32 < U32 →
      (encodeHeader newEncoder hdrEx).2.dst.length = hdrEx.Len)) :=
  ⟨by decide, c6_align_len hdrEx (by decide)⟩

/-- Claim C3: nextMsgSerial pre-increments the 32-bit serial counter and never returns 0: from every state below 2^32 - 1 it returns the successor, from 2^32 - 1 it wraps to 1, every returned serial lies in 1..2^32 - 1, and repeated calls starting from 0 enumerate 1, 2, ... up to 2^32 - 1 and then return 1 again. -/
theorem c3_serial :
    (∀ s, s < U32 - 1 → nextMsgSerial s = (s + 1, s + 1)) ∧
    nextMsgSerial (U32 - 1) = (1, 1) ∧
    (∀ s, s < U32 → 1 ≤ (nextMsgSerial s).1 ∧ (nextMsgSerial s).1 ≤ U32 - 1) ∧
    (∀ n, n ≤ U32 - 1 → serialAfter n = n) ∧
    serialAfter U32 = 1 := by
  have hU : U32 = 4294967296 := rfl
  have hstep : ∀ s, s < U32 - 1 → nextMsgSerial s = (s + 1, s + 1) := by
    intro s hs
    rw [hU] at hs
    have h1 : (s + 1) % U32 = s + 1 := Nat.mod_eq_of_lt (by rw [hU]; omega)
    rw [nextMsgSerial]
    rw [h1, if_neg (by omega)]
  have hwrap : nextMsgSerial (U32 - 1) = (1, 1) := by
    rw [nextMsgSerial]
    rw [show (U32 - 1 + 1) % U32 = 0 by rw [hU]]
    rw [if_pos rfl]
    rw [hU]
  have henum : ∀ n, n ≤ U32 - 1 → serialAfter n = n := by
    intro n
    induction n with
    | zero => intro _; rfl
    | succ m ih =>
      intro hn
      have hm : m ≤ U32 - 1 := by rw [hU] at hn ⊢; omega
      have hmlt : m < U32 - 1 := by rw [hU] at hn ⊢; omega
      rw [serialAfter, ih hm, hstep m hmlt]
  refine ⟨hstep, hwrap, ?_, henum, ?_⟩
  · intro s hs
    by_cases h : s < U32 - 1
    · rw [hstep s h]
      dsimp only
      rw [hU] at h ⊢
      omega
    · have hse : s = U32 - 1 := by rw [hU] at hs h ⊢; omega
      rw [hse, hwrap]
      dsimp only
      rw [hU]
      omega
  · have hU1 : U32 = (U32 - 1) + 1 := by rw [hU]
    rw [hU1, serialAfter]
    rw [henum (U32 - 1) (le_refl _), hwrap]

theorem c3_witness :
    nextMsgSerial 5 = (6, 6) ∧ serialAfter 7 = 7 :=
  ⟨c3_serial.1 5 (by decide), c3_serial.2.2.2.1 7 (by decide)⟩

/-- Claim C5: decodeHeader returns the maximum-length error whenever the decoded BodyLen exceeds 134217728, with the decoder having consumed exactly the 16-byte prologue and no header field; encodeHeader returns the same error when h.BodyLen exceeds 134217728 with the encoder state returned unchanged, before writing any byte. -/
theorem c5_maxlen :
    (∀ (b rest : List Nat) (ord : ByteOrd) (skip : Bool),
      b.length = 16 → byteOrderOf (b.headD 0) = some ord →
      getU32 ord ((b.drop 4).take 4) > maxMessageSize →
      decodeHeader (newDecoder (b ++ rest)) skip =
        (Except.error (Err.maxLength (getU32 ord ((b.drop 4).take 4))),
         ⟨ord, rest, 16⟩)) ∧
    (∀ (e : encoder) (h : header), h.BodyLen > maxMessageSize →
      encodeHeader e h = (some (Err.maxLength h.BodyLen), e)) := by
  constructor
  · intro b rest ord skip hb hord hmax
    rw [show newDecoder (b ++ rest) = (⟨ByteOrd.little, b ++ rest, 0⟩ : decoder) from rfl]
    rw [decodeHeader, show messagePrologueSize = 16 from rfl]
    have hRead : decoder.ReadN ⟨ByteOrd.little, b ++ rest, 0⟩ 16 =
        (Except.ok b, ⟨ByteOrd.little, rest, 16⟩) := by
      rw [decoder.ReadN]
      dsimp only
      rw [if_pos (by simp [hb])]
      rw [List.take_left' hb, List.drop_left' hb]
      norm_num [U32]
    rw [hRead]
    dsimp only
    rw [hord]
    dsimp only
    rw [if_pos hmax]
  · intro e h hmax
    rw [encodeHeader, if_pos hmax]

theorem c5_witness :
    decodeHeader (newDecoder
        ([108, 1, 0, 1, 1, 0, 0, 8, 1, 0, 0, 0, 0, 0, 0, 0] ++ [7, 7])) false =
      (Except.error (Err.maxLength (getU32 ByteOrd.little
        (([108, 1, 0, 1, 1, 0, 0, 8, 1, 0, 0, 0, 0, 0, 0, 0].drop 4).take 4))),
       ⟨ByteOrd.little, [7, 7], 16⟩) ∧
    encodeHeader ⟨ByteOrd.little, [9], 1⟩ ⟨108, 1, 0, 1, 134217729, 1, 0, []⟩ =
      (some (Err.maxLength (header.BodyLen ⟨108, 1, 0, 1, 134217729, 1, 0, []⟩)),
       ⟨ByteOrd.little, [9], 1⟩) :=
  ⟨c5_maxlen.1 _ _ ByteOrd.little false (by decide) (by decide) (by decide),
   c5_maxlen.2 ⟨ByteOrd.little, [9], 1⟩ ⟨108, 1, 0, 1, 134217729, 1, 0, []⟩ (by decide)⟩

/-- Claim C7: readN reads n bytes using at most two Read calls on the source: an error on the first call is surfaced at once, a full first read returns without a second call, and a short error-free first read triggers exactly one more call whose error flag is returned with the buffer.  Corrected: when the second call also short-returns without error, readN returns the short buffer with a nil error rather than surfacing an I/O failure; see the counterexample. -/
theorem c7_readN :
    (∀ (n : Nat) (src : List readCall),
      (readN n src).2 = src.tail ∨ (readN n src).2 = src.tail.tail) ∧
    (∀ (n : Nat) (c1 : readCall) (rest : List readCall), c1.err = true →
      readN n (c1 :: rest) = (readNres.fail, rest)) ∧
    (∀ (n : Nat) (c1 : readCall) (rest : List readCall), c1.err = false →
      min c1.avail n = n → readN n (c1 :: rest) = (readNres.ok n false, rest)) ∧
    (∀ (n : Nat) (c1 c2 : readCall) (rest : List readCall), c1.err = false →
      min c1.avail n < n →
      readN n (c1 :: c2 :: rest) =
        (readNres.ok (min c1.avail n + min c2.avail (n - min c1.avail n)) c2.err,
         rest)) := by
  refine ⟨?_, ?_, ?_, ?_⟩
  · intro n src
    cases src with
    | nil => left; simp [readN]
    | cons c1 rest =>
      by_cases h1 : c1.err
      · left; simp [readN, h1]
      · by_cases h2 : min c1.avail n = n
        · left; simp [readN, h1, h2]
        · right; simp [readN, h1, h2]
  · intro n c1 rest h
    simp [readN, h]
  · intro n c1 rest h1 h2
    simp [readN, h1, h2]
  · intro n c1 c2 rest h1 h2
    simp [readN, h1, Nat.ne_of_lt h2]

theorem c7_witness :
    readN 2 [(⟨5, false⟩ : readCall)] = (readNres.ok 2 false, []) :=
  c7_readN.2.2.1 2 ⟨5, false⟩ [] (by decide) (by decide)

theorem c7_counterexample :
    readN 3 [⟨1, false⟩, ⟨1, false⟩] = (readNres.ok 2 false, []) ∧ 2 < 3 := by
  decide

/-- Claim C8: for every input byte slice b and every converter state satisfying the invariant offset = len(buf), which newStringConverter establishes and String preserves, stringConverter.String(b) returns exactly the bytes b, across the oversized, rollover and append paths, and returns the empty string exactly when b is empty. -/
theorem c8_interner (c : stringConverter) (b : List Nat)
    (hinv : c.offset = c.buf.length) :
    (c.String b).1 = b ∧
    (c.String b).2.offset = (c.String b).2.buf.length ∧
    ((c.String b).1 = [] ↔ b = []) ∧
    (∀ cap, (newStringConverter cap).offset = (newStringConverter cap).buf.length) := by
  have hmain : (c.String b).1 = b ∧
      (c.String b).2.offset = (c.String b).2.buf.length := by
    rw [stringConverter.String]
    try dsimp only
    by_cases h0 : b.length = 0
    · have hb : b = [] := List.length_eq_zero.mp h0
      subst hb
      simp [hinv]
    · rw [if_neg h0]
      by_cases hcap : b.length > c.capacity
      · rw [if_pos hcap]
        exact ⟨rfl, hinv⟩
      · rw [if_neg hcap]
        try dsimp only
        by_cases hroll : c.buf.length + b.length > c.capacity
        · rw [if_pos hroll]
          try dsimp only
          constructor
          · simp
          · simp
        · rw [if_neg hroll]
          try dsimp only
          constructor
          · rw [hinv, List.drop_left]
            simp
          · simp [hinv]
  refine ⟨hmain.1, hmain.2, ?_, fun cap => rfl⟩
  rw [hmain.1]

theorem c8_witness :
    (((⟨[1, 2], 10, 2⟩ : stringConverter).String [3, 4]).1 = [3, 4] ∧
     ((⟨[1, 2], 10, 2⟩ : stringConverter).String [3, 4]).2.offset =
       ((⟨[1, 2], 10, 2⟩ : stringConverter).String [3, 4]).2.buf.length ∧
     (((⟨[1, 2], 10, 2⟩ : stringConverter).String [3, 4]).1 = [] ↔ ([3, 4] : List Nat) = []) ∧
     (∀ cap, (newStringConverter cap).offset = (newStringConverter cap).buf.length)) :=
  c8_interner ⟨[1, 2], 10, 2⟩ [3, 4] (by decide)

/-- Claim C9: for every offset k and alignment n in {1, 2, 4, 8} with k + n within the uint32 range, nextOffset(k, n) returns next = ceil(k/n)*n and padding = next - k, and the decoder's Align(n) from offset k advances to next, consuming exactly the padding bytes (zero when k is already aligned).  Corrected: without the bound the claim fails, because nextOffset computes in wrapping uint32 arithmetic: at k = 2^32 - 1, n = 8 it returns next = 0 with padding 1; see the counterexample. -/
theorem c9_nextOffset (k n : Nat) (hn : n = 1 ∨ n = 2 ∨ n = 4 ∨ n = 8)
    (hk : k + n ≤ U32) :
    nextOffset k n = ((k + n - 1) / n * n, (k + n - 1) / n * n - k) ∧
    (∀ d : decoder, d.offset = k → (k + n - 1) / n * n - k ≤ d.src.length →
      d.Align n = (none, ⟨d.order, d.src.drop ((k + n - 1) / n * n - k),
        (k + n - 1) / n * n⟩)) := by
  have hno : nextOffset k n = (k + (n - k % n) % n, (n - k % n) % n) := by
    rcases hn with rfl | rfl | rfl | rfl
    · rw [nextOffset1]
      norm_num [Nat.mod_one]
    · exact nextOffset2 k hk
    · exact nextOffset4 k hk
    · exact nextOffset8 k hk
  have harith : k + (n - k % n) % n = (k + n - 1) / n * n ∧
      (n - k % n) % n = (k + n - 1) / n * n - k := by
    rcases hn with rfl | rfl | rfl | rfl <;> constructor <;> omega
  constructor
  · rw [hno, harith.1, harith.2]
  · intro d hd hsrc
    obtain ⟨ord, src, off⟩ := d
    dsimp only at hd hsrc ⊢
    subst off
    rw [decoder.Align]
    try dsimp only
    rw [hno]
    try dsimp only
    rw [← harith.2] at hsrc
    by_cases hp : (n - k % n) % n = 0
    · rw [if_pos hp]
      rw [← harith.2, ← harith.1, hp]
      simp
    · rw [if_neg hp, if_pos hsrc]
      rw [← harith.2, ← harith.1]

theorem c9_witness :
    nextOffset 5 4 = ((5 + 4 - 1) / 4 * 4, (5 + 4 - 1) / 4 * 4 - 5) ∧
    decoder.Align ⟨ByteOrd.little, [0, 0, 0, 9], 5⟩ 4 =
      (none, ⟨ByteOrd.little, ([0, 0, 0, 9] : List Nat).drop ((5 + 4 - 1) / 4 * 4 - 5),
        (5 + 4 - 1) / 4 * 4⟩) :=
  ⟨(c9_nextOffset 5 4 (by decide) (by decide)).1,
   (c9_nextOffset 5 4 (by decide) (by decide)).2 ⟨ByteOrd.little, [0, 0, 0, 9], 5⟩ rfl
     (by decide)⟩

theorem c9_counterexample :
    nextOffset (U32 - 1) 8 = (0, 1) ∧ (U32 - 1 + 8 - 1) / 8 * 8 ≠ 0 := by
  constructor
  · decide
  · decide

/-- Claim C2: escapeBusLabel (modelled from the spec; its definition is missing from src) maps the empty name to a single underscore; a leading ASCII digit d becomes the literal underscore-3-d; an alphanumeric character passes through; every other character, the underscore included, becomes an underscore followed by the two lower-case hex digits of its byte; the output is always non-empty and uses only characters from the class letters, digits and underscore, and the seven seed examples of encoder_test.go are reproduced.  Corrected: the claim's literal rule lets the underscore pass through, which contradicts the seed examples; see the counterexample. -/
theorem c2_escape :
    (∀ name : List Nat, escapeBusLabel name ≠ [] ∧
      ∀ c ∈ escapeBusLabel name, isAlphanum c = true ∨ c = 95) ∧
    escapeBusLabel [] = [95] ∧
    (∀ c, escChar true c = if isDigit c then [95, 51, c] else escChar false c) ∧
    (∀ c, escChar false c =
      if isAlphanum c then [c]
      else [95, hexDigit (c / 16 % 16), hexDigit (c % 16)]) ∧
    escapeBusLabel ([] : List Nat) = [95] ∧
    escapeBusLabel ([100, 98, 117, 115] : List Nat) = [100, 98, 117, 115] ∧
    escapeBusLabel ([100, 98, 117, 115, 46, 115, 101, 114, 118, 105, 99, 101] : List Nat) = [100, 98, 117, 115, 95, 50, 101, 115, 101, 114, 118, 105, 99, 101] ∧
    escapeBusLabel ([102, 111, 111, 64, 98, 97, 114, 46, 115, 101, 114, 118, 105, 99, 101] : List Nat) = [102, 111, 111, 95, 52, 48, 98, 97, 114, 95, 50, 101, 115, 101, 114, 118, 105, 99, 101] ∧
    escapeBusLabel ([102, 111, 111, 95, 98, 97, 114, 64, 98, 97, 114, 46, 115, 101, 114, 118, 105, 99, 101] : List Nat) = [102, 111, 111, 95, 53, 102, 98, 97, 114, 95, 52, 48, 98, 97, 114, 95, 50, 101, 115, 101, 114, 118, 105, 99, 101] ∧
    escapeBusLabel ([115, 121, 115, 116, 101, 109, 100, 45, 110, 101, 116, 119, 111, 114, 107, 100, 45, 119, 97, 105, 116, 45, 111, 110, 108, 105, 110, 101, 46, 115, 101, 114, 118, 105, 99, 101] : List Nat) = [115, 121, 115, 116, 101, 109, 100, 95, 50, 100, 110, 101, 116, 119, 111, 114, 107, 100, 95, 50, 100, 119, 97, 105, 116, 95, 50, 100, 111, 110, 108, 105, 110, 101, 95, 50, 101, 115, 101, 114, 118, 105, 99, 101] ∧
    escapeBusLabel ([53, 53, 53] : List Nat) = [95, 51, 53, 53, 53] := by
  have hexClass : ∀ v, v < 16 → isAlphanum (hexDigit v) = true := by
    intro v hv
    unfold hexDigit isAlphanum
    by_cases h : v < 10
    · rw [if_pos h]
      simp only [decide_eq_true_eq]
      omega
    · rw [if_neg h]
      simp only [decide_eq_true_eq]
      omega
  have hescClass : ∀ (first : Bool) (c x : Nat), x ∈ escChar first c →
      isAlphanum x = true ∨ x = 95 := by
    intro first c x hx
    rw [escChar] at hx
    split at hx
    · next h =>
      simp only [List.mem_singleton] at hx
      subst hx
      exact Or.inl h.1
    · next h =>
      simp only [List.mem_cons, List.not_mem_nil, or_false] at hx
      rcases hx with rfl | rfl | rfl
      · right; rfl
      · left; exact hexClass _ (by omega)
      · left; exact hexClass _ (by omega)
  have htotal : ∀ name : List Nat, escapeBusLabel name ≠ [] ∧
      ∀ c ∈ escapeBusLabel name, isAlphanum c = true ∨ c = 95 := by
    intro name
    cases name with
    | nil =>
      constructor
      · simp [escapeBusLabel]
      · intro x hx
        simp only [escapeBusLabel, List.mem_singleton] at hx
        subst hx
        right; rfl
    | cons c rest =>
      have hne : escChar true c ≠ [] := by
        rw [escChar]; split <;> simp
      constructor
      · rw [escapeBusLabel]
        simp only [ne_eq, List.append_eq_nil]
        intro h
        exact hne h.1
      · intro x hx
        rw [escapeBusLabel, List.mem_append] at hx
        rcases hx with hx | hx
        · exact hescClass true c x hx
        · rw [List.mem_flatten] at hx
          obtain ⟨l, hl, hxl⟩ := hx
          rw [List.mem_map] at hl
          obtain ⟨cc, hcc, rfl⟩ := hl
          exact hescClass false cc x hxl
  have hfirst : ∀ c, escChar true c = if isDigit c then [95, 51, c] else escChar false c := by
    intro c
    by_cases hd : isDigit c = true
    · rw [if_pos hd]
      have hd2 : 48 ≤ c ∧ c ≤ 57 := by
        unfold isDigit at hd
        simpa using hd
      rw [escChar]
      rw [if_neg (by simp [hd])]
      have h1 : c / 16 % 16 = 3 := by omega
      have h2 : hexDigit (c % 16) = c := by
        unfold hexDigit
        rw [if_pos (by omega)]
        omega
      rw [h1, h2]
      rfl
    · rw [if_neg hd]
      rw [escChar, escChar]
      have hd3 : isDigit c = false := by
        cases hdd : isDigit c
        · rfl
        · exact absurd hdd hd
      simp [hd3]
  have hrest : ∀ c, escChar false c =
      if isAlphanum c then [c]
      else [95, hexDigit (c / 16 % 16), hexDigit (c % 16)] := by
    intro c
    rw [escChar]
    simp
  exact ⟨htotal, rfl, hfirst, hrest, by decide, by decide, by decide, by decide,
    by decide, by decide, by decide⟩

theorem c2_witness :
    escapeBusLabel [100] ≠ [] ∧ (isAlphanum 100 = true ∨ (100 : Nat) = 95) :=
  ⟨(c2_escape.1 [100]).1, (c2_escape.1 [100]).2 100 (by decide)⟩

theorem c2_counterexample :
    escapeBusLabel ([102, 111, 111, 95, 98, 97, 114, 64, 98, 97, 114, 46, 115, 101, 114, 118, 105, 99, 101] : List Nat) =
      [102, 111, 111, 95, 53, 102, 98, 97, 114, 95, 52, 48, 98, 97, 114, 95, 50, 101, 115, 101, 114, 118, 105, 99, 101] ∧
    escapeBusLabelSpecRule ([102, 111, 111, 95, 98, 97, 114, 64, 98, 97, 114, 46, 115, 101, 114, 118, 105, 99, 101] : List Nat) ≠
      [102, 111, 111, 95, 53, 102, 98, 97, 114, 95, 52, 48, 98, 97, 114, 95, 50, 101, 115, 101, 114, 118, 105, 99, 101] := by
  decide

/-- Claim C4: decoding one header field fails with the container-not-supported error whenever the variant signature is not exactly one character, and with the unknown-type error when the single character is not u, s, o or g; encodeHeaderField rejects exactly the same signatures with the same two errors; and for the four supported signatures a valid field encodes without error and its encoded bytes decode back to the same field. -/
theorem c4_sig_dispatch :
    (∀ (e : encoder) (f : headerField), f.Signature.length ≠ 1 →
      encodeHeaderField e f = (some (Err.containerNotSupported f.Signature), e)) ∧
    (∀ (e : encoder) (f : headerField) (c : Nat), f.Signature = [c] →
      ¬(c = 117 ∨ c = 115 ∨ c = 111 ∨ c = 103) →
      (encodeHeaderField e f).1 = some (Err.unknownType f.Signature)) ∧
    (∀ (e : encoder) (f : headerField) (c : Nat), f.Signature = [c] →
      (c = 117 ∨ c = 115 ∨ c = 111 ∨ c = 103) →
      (encodeHeaderField e f).1 = none) ∧
    (∀ (d d1 d2 d3 : decoder) (code : Nat) (sign : List Nat),
      d.Align 8 = (none, d1) → d1.Byte = (Except.ok code, d2) →
      d2.Signature = (Except.ok sign, d3) → sign.length ≠ 1 →
      decodeHeaderField d = (Except.error (Err.containerNotSupported sign), d3)) ∧
    (∀ (d d1 d2 d3 : decoder) (code c : Nat),
      d.Align 8 = (none, d1) → d1.Byte = (Except.ok code, d2) →
      d2.Signature = (Except.ok [c], d3) →
      ¬(c = 117 ∨ c = 115 ∨ c = 111 ∨ c = 103) →
      decodeHeaderField d = (Except.error (Err.unknownType [c]), d3)) ∧
    (∀ (f : headerField) (D : List Nat) (p : Nat), validField f →
      p + 17 + valueLen f < U32 →
      (encodeHeaderField ⟨ByteOrd.little, D, p⟩ f).1 = none ∧
      ∀ r, (decodeHeaderField ⟨ByteOrd.little, fieldChunk f p ++ r, p⟩).1 =
        Except.ok f) := by
  refine ⟨?_, ?_, ?_, ?_, ?_, ?_⟩
  · intro e f hlen
    rw [encodeHeaderField, if_neg hlen]
  · intro e f c hsig hc
    push_neg at hc
    rw [encodeHeaderField, if_pos (by rw [hsig]; rfl), hsig]
    dsimp only
    rw [if_neg (by simpa using hc.1), if_neg (by simp [hc.2.1, hc.2.2.1]),
      if_neg (by simpa using hc.2.2.2)]
  · intro e f c hsig hc
    rw [encodeHeaderField, if_pos (by rw [hsig]; rfl), hsig]
    dsimp only
    simp only [List.headD_cons]
    rcases hc with rfl | rfl | rfl | rfl
    · rw [if_pos rfl]
    · rw [if_neg (by norm_num), if_pos (by norm_num)]
    · rw [if_neg (by norm_num), if_pos (by norm_num)]
    · rw [if_neg (by norm_num), if_neg (by norm_num), if_pos rfl]
  · intro d d1 d2 d3 code sign hA hB hS hlen
    rw [decodeHeaderField, hA]
    dsimp only
    rw [hB]
    dsimp only
    rw [hS]
    dsimp only
    rw [if_neg hlen]
  · intro d d1 d2 d3 code c hA hB hS hc
    push_neg at hc
    rw [decodeHeaderField, hA]
    dsimp only
    rw [hB]
    dsimp only
    rw [hS]
    dsimp only
    rw [if_pos (show ([c] : List Nat).length = 1 from by simp)]
    simp only [List.headD_cons]
    rw [if_neg (by simpa using hc.1), if_neg (by simp [hc.2.1, hc.2.2.1]),
      if_neg (by simpa using hc.2.2.2)]
  · intro f D p hf hb
    have h := field_rt f D p hf hb
    constructor
    · rw [h.1]
    · intro r
      rw [h.2.2 r]

theorem c4_witness :
    encodeHeaderField ⟨ByteOrd.little, [], 0⟩ ⟨[97, 117], 0, [], 1⟩ =
      (some (Err.containerNotSupported [97, 117]), ⟨ByteOrd.little, [], 0⟩) ∧
    decodeHeaderField ⟨ByteOrd.little, [5, 2, 97, 117, 0], 0⟩ =
      (Except.error (Err.containerNotSupported [97, 117]), ⟨ByteOrd.little, [], 5⟩) :=
  ⟨c4_sig_dispatch.1 ⟨ByteOrd.little, [], 0⟩ ⟨[97, 117], 0, [], 1⟩ (by decide),
   c4_sig_dispatch.2.2.2.1 ⟨ByteOrd.little, [5, 2, 97, 117, 0], 0⟩
     ⟨ByteOrd.little, [5, 2, 97, 117, 0], 0⟩ ⟨ByteOrd.little, [2, 97, 117, 0], 1⟩
     ⟨ByteOrd.little, [], 5⟩ 5 [97, 117] (by decide) (by decide) (by decide) (by decide)⟩

/-- Claim C10: when decodeHeader parses header fields (skipFields = false) and the field loop stops with an error partway through the fields array, the error is discarded: whenever the final 8-byte alignment succeeds, the caller receives a nil error and a header carrying only the prefix of fields decoded before the failure. -/
theorem c10_discard (b rest : List Nat) (ord : ByteOrd) (e : Err)
    (r : List headerField × decoder × Option Err) (d4 : decoder)
    (hb : b.length = 16) (hord : byteOrderOf (b.headD 0) = some ord)
    (hmax : ¬(getU32 ord ((b.drop 4).take 4) > maxMessageSize))
    (hr : decodeFields (rest.length + 1)
      ((16 + getU32 ord ((b.drop 12).take 4)) % U32) ⟨ord, rest, 16⟩ [] = r)
    (herr : r.2.2 = some e)
    (hal : r.2.1.Align 8 = (none, d4)) :
    decodeHeader (newDecoder (b ++ rest)) false =
      (Except.ok { ByteOrder := b.headD 0, Typ := b.getD 1 0, Flags := b.getD 2 0,
                   Proto := b.getD 3 0, BodyLen := getU32 ord ((b.drop 4).take 4),
                   Serial := getU32 ord ((b.drop 8).take 4),
                   FieldsLen := getU32 ord ((b.drop 12).take 4), Fields := r.1 },
       d4) := by
  rw [show newDecoder (b ++ rest) = (⟨ByteOrd.little, b ++ rest, 0⟩ : decoder) from rfl]
  rw [decodeHeader, show messagePrologueSize = 16 from rfl]
  have hRead : decoder.ReadN ⟨ByteOrd.little, b ++ rest, 0⟩ 16 =
      (Except.ok b, ⟨ByteOrd.little, rest, 16⟩) := by
    rw [decoder.ReadN]
    dsimp only
    rw [if_pos (by simp [hb])]
    rw [List.take_left' hb, List.drop_left' hb]
    norm_num [U32]
  rw [hRead]
  dsimp only
  rw [hord]
  dsimp only
  rw [if_neg hmax]
  rw [if_neg (by simp)]
  rw [hr, hal]

theorem c10_witness :
    decodeHeader (newDecoder
      ([108, 1, 0, 1, 0, 0, 0, 0, 1, 0, 0, 0, 16, 0, 0, 0] ++
        [42, 2, 97, 117, 0, 0, 0, 0])) false =
      (Except.ok { ByteOrder := 108, Typ := 1, Flags := 0, Proto := 1, BodyLen := 0,
                   Serial := 1, FieldsLen := 16, Fields := [] },
       ⟨ByteOrd.little, [], 24⟩) := by
  have h := c10_discard [108, 1, 0, 1, 0, 0, 0, 0, 1, 0, 0, 0, 16, 0, 0, 0]
    [42, 2, 97, 117, 0, 0, 0, 0] ByteOrd.little (Err.containerNotSupported [97, 117])
    ([], ⟨ByteOrd.little, [0, 0, 0], 21⟩, some (Err.containerNotSupported [97, 117]))
    ⟨ByteOrd.little, [], 24⟩ (by decide) (by decide) (by decide) (by decide) (by decide)
    (by decide)
  exact h
